import Mathlib

/-!
Verification of the UnrealNames.cpp string-interning name table
(src/Engine/Source/Runtime/Core/Private/UObject/UnrealNames.cpp).

Strings are modelled as lists of character codes (`List Nat`); an
`FNameStringView` becomes a `NameView` carrying the `bIsWide` flag and the
code list.  The name pool (`FNamePool`) is modelled with explicit state
passing: the entry allocator becomes a list of entries (an entry's id is its
index), and each open-addressing shard set becomes the list of entry ids it
holds, probed in insertion order (linear probing with insert-at-first-free
and no deletion makes a shard semantically a first-match association list;
the hash only selects a shard/start slot, and `CityHash64` itself lives in
an external header that is not part of this repository).  The slot-level
probing, growth and rehashing machinery of `FNamePoolShard` is modelled
separately and faithfully at the slot-array level further below.
-/

set_option maxRecDepth 8000

namespace UN

/-- ASCII lowercase fold of one character code.  Models `TChar::ToLower` as
used by `HashLowerCase` / `Strnicmp`; the spec limits case folding to the
ASCII range. -/
def toLowerChar (c : Nat) : Nat := if 65 ≤ c ∧ c ≤ 90 then c + 32 else c

/-- Lowercase fold of a whole text, as done by `FNameHash::GenerateLowerCaseHash`
and `HashLowerCase` before hashing, and by case-insensitive comparison. -/
def lowerText (t : List Nat) : List Nat := t.map toLowerChar

/-- Model of `FNameStringView`: a character-code list plus the `bIsWide` flag. -/
structure NameView where
  isWide : Bool
  text : List Nat
deriving DecidableEq

/-- Decimal digit test, models `*It >= '0' && *It <= '9'` in `ParseNumber`. -/
def isDigitCode (c : Nat) : Bool := decide (48 ≤ c ∧ c ≤ 57)

/-- Models `Atoi64`: fold `N = 10 * N + Str[Idx] - '0'` over the digit
characters.  The C++ accumulator is an `int64`; the caller guarantees at most
10 digits, so the value stays far below `2^63` (proved below) and `Nat`
arithmetic coincides with `int64` arithmetic. -/
def atoi64 (l : List Nat) : Nat := l.foldl (fun n c => 10 * n + (c - 48)) 0

/-- Number of trailing decimal-digit characters, as counted by the backwards
scan loop at the top of `FNameHelper::ParseNumber`. -/
def trailingDigits (t : List Nat) : Nat := (t.reverse.takeWhile isDigitCode).length

/-- Modelled from the spec: `NAME_NO_NUMBER_INTERNAL` is declared in the
missing header NameTypes.h; the spec reserves internal value 0 for
"no number". -/
def NAME_NO_NUMBER_INTERNAL : Nat := 0

/-- Modelled from the spec: `NAME_EXTERNAL_TO_INTERNAL` lives in the missing
header NameTypes.h; the spec states external number 0 maps to internal
value 1, i.e. the bias adds one. -/
def externalToInternal (n : Nat) : Nat := n + 1

/-- MAX_int32. -/
def MAX_int32 : Nat := 2147483647

/-- Models `FNameHelper::ParseNumber`.  Returns the internal number and the
(possibly shortened) text, mirroring the in-out `InOutLen` parameter.
The split happens only when there are 1..10 trailing digits, preceded by an
underscore that is not the first... (precisely: `Digits && Digits < Len &&
*(FirstDigit-1) == '_' && Digits <= MaxDigitsInt32`), the digits do not
start with '0' unless there is exactly one digit, and the parsed value is
strictly below `MAX_int32`. -/
def parseNumber (text : List Nat) : Nat × List Nat :=
  let len := text.length
  let digits := trailingDigits text
  if digits ≠ 0 ∧ digits < len ∧ text.getD (len - digits - 1) 0 = 95 ∧ digits ≤ 10 ∧
      (digits = 1 ∨ text.getD (len - digits) 0 ≠ 48) then
    let number := atoi64 (text.drop (len - digits))
    if number < MAX_int32 then
      (externalToInternal number, text.take (len - 1 - digits))
    else
      (NAME_NO_NUMBER_INTERNAL, text)
  else
    (NAME_NO_NUMBER_INTERNAL, text)

/-- Model of a stored `FNameEntry`: header width flag, payload, and (case
preserving builds) the comparison entry id. -/
structure PoolEntry where
  isWide : Bool
  text : List Nat
  comparisonId : Nat
deriving DecidableEq

/-- View of an entry's stored name, models `FNameEntry::MakeView`. -/
def PoolEntry.view (e : PoolEntry) : NameView := ⟨e.isWide, e.text⟩

/-- Model of `FNamePool` state: the entry allocator (ids are list indices),
the display (case-sensitive) shard set and the comparison (case-insensitive)
shard setarrays, each as the list of entry ids they hold in insertion
order. -/
structure Pool where
  entries : List PoolEntry
  displayIds : List Nat
  comparisonIds : List Nat
deriving DecidableEq

/-- Case-sensitive view equality: models `EntryEqualsValue<CaseSensitive>`
(header length/width equality plus `Strncmp`). -/
def eqCS (a b : NameView) : Bool := decide (a = b)

/-- Case-insensitive view equality: models `EntryEqualsValue<IgnoreCase>`
(header length/width equality plus ASCII `Strnicmp`). -/
def eqCI (a b : NameView) : Bool :=
  decide (a.isWide = b.isWide ∧ lowerText a.text = lowerText b.text)

/-- Resolve an id and compare case-sensitively against a probe value. -/
def entryMatchesCS (p : Pool) (id : Nat) (v : NameView) : Bool :=
  match p.entries[id]? with
  | some e => eqCS e.view v
  | none => false

/-- Resolve an id and compare case-insensitively against a probe value. -/
def entryMatchesCI (p : Pool) (id : Nat) (v : NameView) : Bool :=
  match p.entries[id]? with
  | some e => eqCI e.view v
  | none => false

/-- Models `FNamePoolShard<CaseSensitive>::Find` over the display shard set:
first id in probe order whose entry equals the value case-sensitively. -/
def shardFindCS (p : Pool) (v : NameView) : Option Nat :=
  p.displayIds.find? (fun id => entryMatchesCS p id v)

/-- Models `FNamePoolShard<IgnoreCase>::Find` over the comparison shard set. -/
def shardFindCI (p : Pool) (v : NameView) : Option Nat :=
  p.comparisonIds.find? (fun id => entryMatchesCI p id v)

/-- Result of `FNamePoolShard::Insert`: the entry id, the `bCreatedNewEntry`
out-flag, and the updated pool. -/
structure InsertResult where
  id : Nat
  bAdded : Bool
  pool : Pool
deriving DecidableEq

/-- Models `FNamePoolShard<IgnoreCase>::Insert` on the comparison shard set:
probe; on a hit return the existing id, otherwise create a new entry (whose
comparison id is itself, as `FNameEntryAllocator::Create` stores the handle
when no explicit comparison id is supplied) and claim a slot for it. -/
def comparisonInsert (p : Pool) (v : NameView) : InsertResult :=
  match shardFindCI p v with
  | some id => ⟨id, false, p⟩
  | none =>
    let nid := p.entries.length
    ⟨nid, true,
      ⟨p.entries ++ [⟨v.isWide, v.text, nid⟩], p.displayIds, p.comparisonIds ++ [nid]⟩⟩

/-- Models `FNamePoolShard::InsertExistingEntry`: index an already existing
entry id into the display shard set unless an equal slot is already there. -/
def insertExistingEntry (p : Pool) (id : Nat) : Pool :=
  if id ∈ p.displayIds then p
  else ⟨p.entries, p.displayIds ++ [id], p.comparisonIds⟩

/-- Models `FNamePoolShard<CaseSensitive>::Insert` on the display shard set
with an explicit back-reference comparison id in the inserted value. -/
def displayInsert (p : Pool) (v : NameView) (cid : Nat) : Nat × Pool :=
  match shardFindCS p v with
  | some id => (id, p)
  | none =>
    let nid := p.entries.length
    (nid, ⟨p.entries ++ [⟨v.isWide, v.text, cid⟩], p.displayIds ++ [nid], p.comparisonIds⟩)

/-- Models `FNamePool::Store` (case-preserving configuration): probe the
display shard first; on a miss insert into the comparison shard, then either
reuse the comparison entry for display (newly added, or an exact case match)
via `InsertExistingEntry`, or insert a separate display entry that records
the comparison id. -/
def store (p : Pool) (v : NameView) : Nat × Pool :=
  match shardFindCS p v with
  | some id => (id, p)
  | none =>
    let r := comparisonInsert p v
    if r.bAdded || entryMatchesCS r.pool r.id v then
      (r.id, insertExistingEntry r.pool r.id)
    else
      displayInsert r.pool v r.id

/-- Models `FNamePool::Find`: the read-only two-step probe.  A miss yields
entry id 0 (`FNameSlot::GetId` of an unused all-zero slot). -/
def poolFind (p : Pool) (v : NameView) : Nat :=
  match shardFindCS p v with
  | some id => id
  | none => (shardFindCI p v).getD 0

/-- Model of the public handle `FName`: comparison id, display id and the
internal numeric suffix. -/
structure FName where
  comparisonId : Nat
  displayId : Nat
  number : Nat
deriving DecidableEq

/-- Default-constructed `FName()`: both ids zero and no number. -/
def FName.default : FName := ⟨0, 0, 0⟩

/-- Modelled from the spec: `FName::operator==` lives in the missing header
NameTypes.h; the spec states two handles are equal iff comparison
identifiers are equal and numeric suffixes are equal. -/
def fnameEq (a b : FName) : Bool :=
  decide (a.comparisonId = b.comparisonId ∧ a.number = b.number)

/-- The `EFindName` mode flag. -/
inductive EFindName
  | FNAME_Find
  | FNAME_Add
  | FNAME_Replace_Not_Safe_For_Threading
deriving DecidableEq

/-- NAME_SIZE, the maximum name length (buffer size) used by the
`View.Len >= NAME_SIZE` check in `FNameHelper::Make`. -/
def NAME_SIZE : Nat := 1024

/-- Resolve a display id to its entry's comparison id, models
`Pool.Resolve(DisplayId).ComparisonId`. -/
def resolveComparisonId (p : Pool) (id : Nat) : Nat :=
  match p.entries[id]? with
  | some e => e.comparisonId
  | none => 0

/-- The character codes of the fallback literal interned when the max length
check in `FNameHelper::Make` fails (ERROR_NAME_SIZE_EXCEEDED). -/
def errorNameText : List Nat :=
  [69, 82, 82, 79, 82, 95, 78, 65, 77, 69, 95, 83, 73, 90, 69, 95,
   69, 88, 67, 69, 69, 68, 69, 68]

/-- Models `FNameHelper::ReplaceName`: overwrite the stored bytes of an
existing entry in place (same length and width, checked by the source);
the entry's comparison id is untouched. -/
def replaceName (p : Pool) (cid : Nat) (v : NameView) : Pool :=
  match p.entries[cid]? with
  | some e =>
    ⟨p.entries.set cid ⟨v.isWide, v.text, e.comparisonId⟩, p.displayIds, p.comparisonIds⟩
  | none => p

/-- Models `FNameHelper::Make`: length guard, then the `FNAME_Add` /
`FNAME_Find` / `FNAME_Replace_Not_Safe_For_Threading` paths.  The oversized
path interns the `ERROR_NAME_SIZE_EXCEEDED` literal (an `FNAME_Add` with no
number, as the `FName(const ANSICHAR*)` constructor would). -/
def make (p : Pool) (v : NameView) (ft : EFindName) (num : Nat) : FName × Pool :=
  if NAME_SIZE ≤ v.text.length then
    let r := store p ⟨false, errorNameText⟩
    (⟨resolveComparisonId r.2 r.1, r.1, NAME_NO_NUMBER_INTERNAL⟩, r.2)
  else
    match ft with
    | .FNAME_Add =>
      let r := store p v
      (⟨resolveComparisonId r.2 r.1, r.1, num⟩, r.2)
    | .FNAME_Find =>
      let did := poolFind p v
      let cid := if did ≠ 0 then resolveComparisonId p did else did
      (⟨cid, did, num⟩, p)
    | .FNAME_Replace_Not_Safe_For_Threading =>
      let r := store p v
      let cid := resolveComparisonId r.2 r.1
      (⟨cid, r.1, num⟩, replaceName r.2 cid v)

/-- Models `FNameHelper::MakeWithNumber`: an empty text ignores the supplied
number and yields the default handle. -/
def makeWithNumber (p : Pool) (v : NameView) (ft : EFindName) (num : Nat) : FName × Pool :=
  if v.text.length = 0 then (FName.default, p) else make p v ft num

/-- Models `FNameHelper::MakeDetectNumber`: empty text short-circuits,
otherwise the trailing `_<digits>` suffix is parsed off and the shortened
view is passed on with the detected internal number. -/
def makeDetectNumber (p : Pool) (v : NameView) (ft : EFindName) : FName × Pool :=
  if v.text.length = 0 then (FName.default, p)
  else
    let r := parseNumber v.text
    makeWithNumber p ⟨v.isWide, r.2⟩ ft r.1

/-- The empty pool (before any registration). -/
def emptyPool : Pool := ⟨[], [], []⟩

/-- Character codes of the hardcoded name at index `NAME_None`. -/
def textNone : List Nat := [78, 111, 110, 101]

/-- Modelled from the spec: pool construction registers the hardcoded
well-known names (the REGISTER_NAME list lives in the missing
UObject/UnrealNames.inl); the first registered name is the `NAME_None`
entry, the four characters of the word None, so it receives entry id 0. -/
def initialPool : Pool := (store emptyPool ⟨false, textNone⟩).2

/-! ### Arithmetic facts about the numeric suffix parser -/

lemma digit_sub_le {c : Nat} (hc : isDigitCode c = true) : c - 48 ≤ 9 := by
  simp only [isDigitCode, decide_eq_true_eq] at hc
  omega

lemma atoi64_foldl_le (l : List Nat) :
    ∀ acc : Nat, (∀ c ∈ l, isDigitCode c = true) →
      l.foldl (fun n c => 10 * n + (c - 48)) acc ≤ (acc + 1) * 10 ^ l.length - 1 := by
  induction l with
  | nil => intro acc _; simp
  | cons c l ih =>
    intro acc h
    have hc : c - 48 ≤ 9 := digit_sub_le (h c (by simp))
    have htail := ih (10 * acc + (c - 48)) (fun x hx => h x (by simp [hx]))
    calc List.foldl (fun n c => 10 * n + (c - 48)) (10 * acc + (c - 48)) l
        ≤ (10 * acc + (c - 48) + 1) * 10 ^ l.length - 1 := htail
      _ ≤ (acc + 1) * 10 ^ (c :: l).length - 1 := by
          have hpow : (10 * acc + (c - 48) + 1) * 10 ^ l.length ≤
              (acc + 1) * 10 ^ (c :: l).length := by
            have : (10 * acc + (c - 48) + 1) ≤ (acc + 1) * 10 := by omega
            calc (10 * acc + (c - 48) + 1) * 10 ^ l.length
                ≤ ((acc + 1) * 10) * 10 ^ l.length :=
                  Nat.mul_le_mul_right _ this
              _ = (acc + 1) * 10 ^ (c :: l).length := by
                  simp [List.length_cons, pow_succ]; ring
          omega

lemma atoi64_le (l : List Nat) (h : ∀ c ∈ l, isDigitCode c = true) :
    atoi64 l ≤ 10 ^ l.length - 1 := by
  have := atoi64_foldl_le l 0 h
  simpa [atoi64] using this

lemma drop_sub_takeWhile (p : Nat → Bool) (r : List Nat) :
    r.reverse.drop (r.reverse.length - (r.takeWhile p).length) = (r.takeWhile p).reverse := by
  have h3 := congrArg List.length (List.takeWhile_append_dropWhile (p := p) (l := r))
  simp only [List.length_append] at h3
  have h2 : r.reverse.length - (r.takeWhile p).length = (r.dropWhile p).reverse.length := by
    simp only [List.length_reverse]
    omega
  have h1 : r.reverse = (r.dropWhile p).reverse ++ (r.takeWhile p).reverse := by
    rw [← List.reverse_append, List.takeWhile_append_dropWhile]
  rw [h2, h1, List.drop_left]

lemma trailing_suffix_digits (t : List Nat) :
    ∀ c ∈ t.drop (t.length - trailingDigits t), isDigitCode c = true := by
  intro c hc
  have hd := drop_sub_takeWhile isDigitCode t.reverse
  rw [List.reverse_reverse] at hd
  simp only [trailingDigits] at hc
  rw [hd] at hc
  exact List.mem_takeWhile_imp (List.mem_reverse.mp hc)

/-- Claim C1: suffix-splitting of a trailing underscore-digits component.
When the text ends in an underscore followed by 1 to 10 decimal digits that
do not start with a zero (unless the suffix is the single digit 0), with the
parsed value strictly below `MAX_int32`, construction from the raw text
equals construction from the prefix with the number supplied explicitly
(with the external-to-internal bias); otherwise the whole text is kept with
no number.  Additionally the `Atoi64` conversion of at most 10 digits never
overflows a signed 64-bit integer. -/
theorem suffix_split_correct (p : Pool) (ft : EFindName) (w : Bool) (text : List Nat) :
    ((trailingDigits text ≠ 0 ∧ trailingDigits text < text.length ∧
      text.getD (text.length - trailingDigits text - 1) 0 = 95 ∧
      trailingDigits text ≤ 10 ∧
      (trailingDigits text = 1 ∨ text.getD (text.length - trailingDigits text) 0 ≠ 48) ∧
      atoi64 (text.drop (text.length - trailingDigits text)) < MAX_int32) →
      makeDetectNumber p ⟨w, text⟩ ft =
        makeWithNumber p ⟨w, text.take (text.length - 1 - trailingDigits text)⟩ ft
          (externalToInternal (atoi64 (text.drop (text.length - trailingDigits text))))) ∧
    (¬ (trailingDigits text ≠ 0 ∧ trailingDigits text < text.length ∧
      text.getD (text.length - trailingDigits text - 1) 0 = 95 ∧
      trailingDigits text ≤ 10 ∧
      (trailingDigits text = 1 ∨ text.getD (text.length - trailingDigits text) 0 ≠ 48) ∧
      atoi64 (text.drop (text.length - trailingDigits text)) < MAX_int32) →
      makeDetectNumber p ⟨w, text⟩ ft =
        makeWithNumber p ⟨w, text⟩ ft NAME_NO_NUMBER_INTERNAL) ∧
    (trailingDigits text ≤ 10 →
      atoi64 (text.drop (text.length - trailingDigits text)) < 2 ^ 63) := by
  refine ⟨?_, ?_, ?_⟩
  · intro h
    obtain ⟨h1, h2, h3, h4, h5, h6⟩ := h
    have hne : text.length ≠ 0 := by omega
    have hcond : trailingDigits text ≠ 0 ∧ trailingDigits text < text.length ∧
        text.getD (text.length - trailingDigits text - 1) 0 = 95 ∧
        trailingDigits text ≤ 10 ∧
        (trailingDigits text = 1 ∨ text.getD (text.length - trailingDigits text) 0 ≠ 48) :=
      ⟨h1, h2, h3, h4, h5⟩
    simp only [makeDetectNumber, hne, if_false, parseNumber, if_pos hcond, if_pos h6]
  · intro h
    by_cases hlen : text.length = 0
    · have htext : text = [] := List.length_eq_zero.mp hlen
      subst htext
      simp [makeDetectNumber, makeWithNumber]
    · by_cases hcond : trailingDigits text ≠ 0 ∧ trailingDigits text < text.length ∧
          text.getD (text.length - trailingDigits text - 1) 0 = 95 ∧
          trailingDigits text ≤ 10 ∧
          (trailingDigits text = 1 ∨ text.getD (text.length - trailingDigits text) 0 ≠ 48)
      · have hval : ¬ atoi64 (text.drop (text.length - trailingDigits text)) < MAX_int32 := by
          intro hv
          exact h ⟨hcond.1, hcond.2.1, hcond.2.2.1, hcond.2.2.2.1, hcond.2.2.2.2, hv⟩
        simp only [makeDetectNumber, hlen, if_false, parseNumber, if_pos hcond, if_neg hval]
      · simp only [makeDetectNumber, hlen, if_false, parseNumber, if_neg hcond]
  · intro h10
    have hd := trailing_suffix_digits text
    have hle := atoi64_le _ hd
    have hlen : (text.drop (text.length - trailingDigits text)).length ≤ 10 := by
      simp only [List.length_drop]
      omega
    have : (10 : Nat) ^ (text.drop (text.length - trailingDigits text)).length ≤ 10 ^ 10 :=
      Nat.pow_le_pow_right (by norm_num) hlen
    have hbound : atoi64 (text.drop (text.length - trailingDigits text)) ≤ 10 ^ 10 - 1 := by
      omega
    have : (10 : Nat) ^ 10 - 1 < 2 ^ 63 := by norm_num
    omega

/-- Witness for C1 at concrete inputs: the split case at the six characters
of Text underscore 0 and the non-split case at Text underscore 2147483647
(the boundary value that must not be split). -/
theorem suffix_split_correct_witness :
    (makeDetectNumber emptyPool ⟨false, [84, 101, 120, 116, 95, 48]⟩ .FNAME_Add =
      makeWithNumber emptyPool ⟨false, [84, 101, 120, 116]⟩ .FNAME_Add 1) ∧
    (makeDetectNumber emptyPool
        ⟨false, [84, 101, 120, 116, 95, 50, 49, 52, 55, 52, 56, 51, 54, 52, 55]⟩ .FNAME_Add =
      makeWithNumber emptyPool
        ⟨false, [84, 101, 120, 116, 95, 50, 49, 52, 55, 52, 56, 51, 54, 52, 55]⟩ .FNAME_Add 0) := by
  constructor
  · exact (suffix_split_correct emptyPool .FNAME_Add false
      [84, 101, 120, 116, 95, 48]).1 (by decide)
  · exact (suffix_split_correct emptyPool .FNAME_Add false
      [84, 101, 120, 116, 95, 50, 49, 52, 55, 52, 56, 51, 54, 52, 55]).2.1 (by decide)

/-- Claim C10: constructing a name from an empty (or null, whose view also
has length zero) text with an explicitly supplied number returns the default
no-name handle with no number, ignoring the supplied number, in every find
mode; the pool is untouched. -/
theorem makeWithNumber_empty_text (p : Pool) (w : Bool) (ft : EFindName) (n : Nat) :
    makeWithNumber p ⟨w, []⟩ ft n = (FName.default, p) := rfl

/-! ### Idempotence of Store -/

lemma getElem?_append_sing {α : Type _} (l : List α) (x : α) (i : Nat) :
    (l ++ [x])[i]? =
      if i < l.length then l[i]? else if i = l.length then some x else none := by
  rw [List.getElem?_append]
  by_cases h : i < l.length
  · simp [h]
  · by_cases h2 : i = l.length
    · subst h2
      simp
    · have h3 : 1 ≤ i - l.length := by omega
      rw [if_neg h, if_neg h, if_neg h2, List.getElem?_eq_none (by simpa using h3)]

lemma find?_unique_mem {l : List Nat} {pred : Nat → Bool} {m : Nat}
    (hmem : m ∈ l) (hm : pred m = true) (hu : ∀ x ∈ l, pred x = true → x = m) :
    l.find? pred = some m := by
  induction l with
  | nil => cases hmem
  | cons a l ih =>
    by_cases ha : pred a = true
    · have : a = m := hu a (by simp) ha
      subst this
      exact List.find?_cons_of_pos _ ha
    · rw [List.find?_cons_of_neg _ ha]
      rcases List.mem_cons.mp hmem with h | h
      · subst h
        exact absurd hm ha
      · exact ih h (fun x hx => hu x (List.mem_cons_of_mem _ hx))

lemma entryMatchesCS_append {p q : Pool} {x : PoolEntry}
    (hq : q.entries = p.entries ++ [x]) {id : Nat} (hid : id < p.entries.length)
    (v : NameView) : entryMatchesCS q id v = entryMatchesCS p id v := by
  simp only [entryMatchesCS, hq, getElem?_append_sing, if_pos hid]

lemma entryMatchesCS_new {p q : Pool} {x : PoolEntry}
    (hq : q.entries = p.entries ++ [x]) (v : NameView) :
    entryMatchesCS q p.entries.length v = eqCS x.view v := by
  simp only [entryMatchesCS, hq, getElem?_append_sing]
  simp

lemma entryMatchesCS_big {p q : Pool} {x : PoolEntry}
    (hq : q.entries = p.entries ++ [x]) {id : Nat} (h1 : ¬ id < p.entries.length)
    (h2 : id ≠ p.entries.length) (v : NameView) : entryMatchesCS q id v = false := by
  simp only [entryMatchesCS, hq, getElem?_append_sing, if_neg h1, if_neg h2]

lemma findCS_unique_new {p : Pool} {v : NameView} {c : Nat} (q : Pool)
    (hqe : q.entries = p.entries ++ [⟨v.isWide, v.text, c⟩])
    (hmem : p.entries.length ∈ q.displayIds)
    (hsub : ∀ x ∈ q.displayIds, x ∈ p.displayIds ∨ x = p.entries.length)
    (hnone : shardFindCS p v = none) :
    shardFindCS q v = some p.entries.length := by
  have hall := List.find?_eq_none.mp hnone
  apply find?_unique_mem hmem
  · rw [entryMatchesCS_new hqe]
    simp [eqCS, PoolEntry.view]
  · intro x hx hmatch
    rcases hsub x hx with hxp | hxe
    · by_cases hlt : x < p.entries.length
      · rw [entryMatchesCS_append hqe hlt] at hmatch
        exact absurd hmatch (hall x hxp)
      · by_cases hxe2 : x = p.entries.length
        · exact hxe2
        · rw [entryMatchesCS_big hqe hlt hxe2] at hmatch
          cases hmatch
    · exact hxe

/-- Claim C2: interning is idempotent.  Storing the same view twice returns
the same entry id both times, and the second store leaves the pool exactly
as the first store left it (no new entry is created). -/
theorem store_idempotent (p : Pool) (v : NameView) :
    store (store p v).2 v = ((store p v).1, (store p v).2) := by
  cases hcs : shardFindCS p v with
  | some id =>
    simp [store, hcs]
  | none =>
    have hall := List.find?_eq_none.mp hcs
    cases hci : shardFindCI p v with
    | some cid =>
      by_cases hexact : entryMatchesCS p cid v = true
      · have hnotin : cid ∉ p.displayIds := fun hmem => hall cid hmem hexact
        have hstep : store p v =
            (cid, ⟨p.entries, p.displayIds ++ [cid], p.comparisonIds⟩) := by
          simp [store, hcs, comparisonInsert, hci, hexact, insertExistingEntry, hnotin]
        have hfind : shardFindCS ⟨p.entries, p.displayIds ++ [cid], p.comparisonIds⟩ v
            = some cid := by
          apply find?_unique_mem (by simp)
          · exact hexact
          · intro x hx hmatch
            rcases List.mem_append.mp hx with hxp | hxe
            · exact absurd hmatch (hall x hxp)
            · simpa using hxe
        rw [hstep]
        simp [store, hfind]
      · have hstep : store p v =
            (p.entries.length,
              ⟨p.entries ++ [⟨v.isWide, v.text, cid⟩],
                p.displayIds ++ [p.entries.length], p.comparisonIds⟩) := by
          simp [store, hcs, comparisonInsert, hci, hexact, displayInsert]
        have hfind := findCS_unique_new (p := p) (v := v) (c := cid)
          ⟨p.entries ++ [⟨v.isWide, v.text, cid⟩],
            p.displayIds ++ [p.entries.length], p.comparisonIds⟩
          rfl (by simp) (by intro x hx; simpa using List.mem_append.mp hx) hcs
        rw [hstep]
        simp [store, hfind]
    | none =>
      by_cases hin : p.entries.length ∈ p.displayIds
      · have hstep : store p v =
            (p.entries.length,
              ⟨p.entries ++ [⟨v.isWide, v.text, p.entries.length⟩],
                p.displayIds, p.comparisonIds ++ [p.entries.length]⟩) := by
          simp [store, hcs, comparisonInsert, hci, insertExistingEntry, hin]
        have hfind := findCS_unique_new (p := p) (v := v) (c := p.entries.length)
          ⟨p.entries ++ [⟨v.isWide, v.text, p.entries.length⟩],
            p.displayIds, p.comparisonIds ++ [p.entries.length]⟩
          rfl hin (by intro x hx; exact Or.inl hx) hcs
        rw [hstep]
        simp [store, hfind]
      · have hstep : store p v =
            (p.entries.length,
              ⟨p.entries ++ [⟨v.isWide, v.text, p.entries.length⟩],
                p.displayIds ++ [p.entries.length], p.comparisonIds ++ [p.entries.length]⟩) := by
          simp [store, hcs, comparisonInsert, hci, insertExistingEntry, hin]
        have hfind := findCS_unique_new (p := p) (v := v) (c := p.entries.length)
          ⟨p.entries ++ [⟨v.isWide, v.text, p.entries.length⟩],
            p.displayIds ++ [p.entries.length], p.comparisonIds ++ [p.entries.length]⟩
          rfl (by simp) (by intro x hx; simpa using List.mem_append.mp hx) hcs
        rw [hstep]
        simp [store, hfind]

/-! ### Well-formedness of the pool -/

/-- Placeholder entry used to totalize index lookups. -/
def dummyEntry : PoolEntry := ⟨false, [], 0⟩

/-- Entry at an index, totalized. -/
def entryAt (p : Pool) (i : Nat) : PoolEntry := (p.entries[i]?).getD dummyEntry

/-- Well-formedness of a pool state, maintained by `store`:
ids held by shards are allocated; an entry's comparison id never exceeds its
own id (the comparison entry is inserted first); the comparison shard set
finds exactly the recorded comparison id for every entry's view (canonical
case-insensitive representative); comparison entries are their own
representative. -/
def WF (p : Pool) : Prop :=
  (∀ id ∈ p.displayIds, id < p.entries.length) ∧
  (∀ id ∈ p.comparisonIds, id < p.entries.length) ∧
  (∀ i ∈ List.range p.entries.length, (entryAt p i).comparisonId ≤ i) ∧
  (∀ i ∈ List.range p.entries.length,
      shardFindCI p (entryAt p i).view = some (entryAt p i).comparisonId) ∧
  (∀ id ∈ p.comparisonIds, (entryAt p id).comparisonId = id)

instance (p : Pool) : Decidable (WF p) := by
  unfold WF
  infer_instance

lemma entryAt_lookup {p : Pool} {i : Nat} (h : i < p.entries.length) :
    p.entries[i]? = some (entryAt p i) := by
  simp [entryAt, List.getElem?_eq_getElem h]

lemma find?_congr_mem {l : List Nat} {f g : Nat → Bool} (h : ∀ x ∈ l, f x = g x) :
    l.find? f = l.find? g := by
  induction l with
  | nil => rfl
  | cons a l ih =>
    have ha := h a (by simp)
    by_cases hfa : f a = true
    · rw [List.find?_cons_of_pos _ hfa, List.find?_cons_of_pos _ (ha ▸ hfa)]
    · rw [List.find?_cons_of_neg _ hfa, List.find?_cons_of_neg _ (by rw [← ha]; exact hfa)]
      exact ih (fun x hx => h x (by simp [hx]))

lemma entryMatchesCI_append {p q : Pool} {x : PoolEntry}
    (hq : q.entries = p.entries ++ [x]) {id : Nat} (hid : id < p.entries.length)
    (v : NameView) : entryMatchesCI q id v = entryMatchesCI p id v := by
  simp only [entryMatchesCI, hq, getElem?_append_sing, if_pos hid]

lemma entryMatchesCI_new {p q : Pool} {x : PoolEntry}
    (hq : q.entries = p.entries ++ [x]) (v : NameView) :
    entryMatchesCI q p.entries.length v = eqCI x.view v := by
  simp only [entryMatchesCI, hq, getElem?_append_sing]
  simp

lemma eqCI_refl (v : NameView) : eqCI v v = true := by simp [eqCI]

lemma shardFindCI_eqPool {p q : Pool} (he : q.entries = p.entries)
    (hc : q.comparisonIds = p.comparisonIds) (v : NameView) :
    shardFindCI q v = shardFindCI p v := by
  unfold shardFindCI
  rw [hc]
  exact find?_congr_mem (fun y _ => by simp [entryMatchesCI, he])

lemma shardFindCI_appendEntry {p q : Pool} {x : PoolEntry}
    (hq : q.entries = p.entries ++ [x]) (hc : q.comparisonIds = p.comparisonIds)
    (hvalid : ∀ id ∈ p.comparisonIds, id < p.entries.length) (v : NameView) :
    shardFindCI q v = shardFindCI p v := by
  unfold shardFindCI
  rw [hc]
  exact find?_congr_mem (fun y hy => entryMatchesCI_append hq (hvalid y hy) v)

lemma shardFindCI_appendBoth {p q : Pool} {x : PoolEntry}
    (hq : q.entries = p.entries ++ [x])
    (hc : q.comparisonIds = p.comparisonIds ++ [p.entries.length])
    (hvalid : ∀ id ∈ p.comparisonIds, id < p.entries.length) (v : NameView) :
    shardFindCI q v = (shardFindCI p v).or
      (if eqCI x.view v = true then some p.entries.length else none) := by
  unfold shardFindCI
  rw [hc, List.find?_append]
  have h1 : List.find? (fun id => entryMatchesCI q id v) p.comparisonIds
      = List.find? (fun id => entryMatchesCI p id v) p.comparisonIds :=
    find?_congr_mem (fun y hy => entryMatchesCI_append hq (hvalid y hy) v)
  have h2 : List.find? (fun id => entryMatchesCI q id v) [p.entries.length]
      = if eqCI x.view v = true then some p.entries.length else none := by
    by_cases hm : eqCI x.view v = true
    · rw [List.find?_cons_of_pos _ (by rw [entryMatchesCI_new hq]; exact hm), if_pos hm]
    · rw [List.find?_cons_of_neg _ (by rw [entryMatchesCI_new hq]; exact hm), if_neg hm]
      rfl
  rw [h1, h2]

lemma eqCS_view_eq {e : PoolEntry} {v : NameView} (h : eqCS e.view v = true) :
    e.view = v := of_decide_eq_true h

/-- Core specification of `FNamePool::Store` on a well-formed pool: the pool
stays well-formed, the returned id resolves to the canonical comparison
representative of the stored view (the comparison shard set finds exactly
it), previously established comparison lookups are stable, and the pool only
grows by appending. -/
lemma store_spec {p : Pool} (hWF : WF p) (v : NameView) :
    WF (store p v).2 ∧
    shardFindCI (store p v).2 v
      = some (resolveComparisonId (store p v).2 (store p v).1) ∧
    (∀ w c, shardFindCI p w = some c → shardFindCI (store p v).2 w = some c) ∧
    (∃ es, (store p v).2.entries = p.entries ++ es) ∧
    (∃ cs, (store p v).2.comparisonIds = p.comparisonIds ++ cs) := by
  obtain ⟨wf1, wf2, wf3, wf4, wf5⟩ := hWF
  cases hcs : shardFindCS p v with
  | some id =>
    have hstep : store p v = (id, p) := by simp [store, hcs]
    rw [hstep]
    have hcs' : List.find? (fun x => entryMatchesCS p x v) p.displayIds = some id := hcs
    have hmem : id ∈ p.displayIds := List.mem_of_find?_eq_some hcs'
    have hmatch : entryMatchesCS p id v = true := by
      have := List.find?_some hcs'
      simpa using this
    have hid : id < p.entries.length := wf1 id hmem
    have hview : (entryAt p id).view = v := by
      rw [entryMatchesCS, entryAt_lookup hid] at hmatch
      exact eqCS_view_eq hmatch
    have hcanon := wf4 id (List.mem_range.mpr hid)
    rw [hview] at hcanon
    refine ⟨⟨wf1, wf2, wf3, wf4, wf5⟩, ?_, fun w c h => h, ⟨[], by simp⟩, ⟨[], by simp⟩⟩
    rw [hcanon]
    simp [resolveComparisonId, entryAt_lookup hid]
  | none =>
    have hall := List.find?_eq_none.mp hcs
    cases hci : shardFindCI p v with
    | some cid =>
      have hcmem : cid ∈ p.comparisonIds := List.mem_of_find?_eq_some hci
      have hcid : cid < p.entries.length := wf2 cid hcmem
      by_cases hexact : entryMatchesCS p cid v = true
      · have hnotin : cid ∉ p.displayIds := fun hmem => hall cid hmem hexact
        have hstep : store p v =
            (cid, ⟨p.entries, p.displayIds ++ [cid], p.comparisonIds⟩) := by
          simp [store, hcs, comparisonInsert, hci, hexact, insertExistingEntry, hnotin]
        rw [hstep]
        have hSFeq : ∀ w, shardFindCI ⟨p.entries, p.displayIds ++ [cid], p.comparisonIds⟩ w
            = shardFindCI p w := fun w => shardFindCI_eqPool rfl rfl w
        refine ⟨⟨?_, wf2, wf3, ?_, wf5⟩, ?_, ?_, ⟨[], by simp⟩, ⟨[], by simp⟩⟩
        · intro x hx
          rcases List.mem_append.mp hx with h | h
          · exact wf1 x h
          · simp at h
            subst h
            exact hcid
        · intro i hi
          rw [hSFeq]
          exact wf4 i hi
        · rw [hSFeq, hci]
          simp [resolveComparisonId, entryAt_lookup hcid, wf5 cid hcmem]
        · intro w c h
          rw [hSFeq]
          exact h
      · have hstep : store p v =
            (p.entries.length,
              ⟨p.entries ++ [⟨v.isWide, v.text, cid⟩],
                p.displayIds ++ [p.entries.length], p.comparisonIds⟩) := by
          simp [store, hcs, comparisonInsert, hci, hexact, displayInsert]
        rw [hstep]
        have hSFeq : ∀ w, shardFindCI
            ⟨p.entries ++ [⟨v.isWide, v.text, cid⟩],
              p.displayIds ++ [p.entries.length], p.comparisonIds⟩ w
            = shardFindCI p w := fun w => shardFindCI_appendEntry (p := p)
              (q := ⟨p.entries ++ [⟨v.isWide, v.text, cid⟩],
                p.displayIds ++ [p.entries.length], p.comparisonIds⟩)
              (x := ⟨v.isWide, v.text, cid⟩) rfl rfl wf2 w
        have hlen : (⟨p.entries ++ [⟨v.isWide, v.text, cid⟩],
            p.displayIds ++ [p.entries.length], p.comparisonIds⟩ : Pool).entries.length
            = p.entries.length + 1 := by simp
        have hAtOld : ∀ i < p.entries.length, entryAt
            ⟨p.entries ++ [⟨v.isWide, v.text, cid⟩],
              p.displayIds ++ [p.entries.length], p.comparisonIds⟩ i = entryAt p i := by
          intro i hi
          simp [entryAt, getElem?_append_sing, hi]
        have hAtNew : entryAt
            ⟨p.entries ++ [⟨v.isWide, v.text, cid⟩],
              p.displayIds ++ [p.entries.length], p.comparisonIds⟩ p.entries.length
            = ⟨v.isWide, v.text, cid⟩ := by
          simp [entryAt, getElem?_append_sing]
        refine ⟨⟨?_, ?_, ?_, ?_, ?_⟩, ?_, ?_, ⟨[⟨v.isWide, v.text, cid⟩], by simp⟩,
          ⟨[], by simp⟩⟩
        · intro x hx
          rcases List.mem_append.mp hx with h | h
          · have := wf1 x h
            simp only [hlen]
            omega
          · simp at h
            subst h
            simp [hlen]
        · intro x hx
          have := wf2 x hx
          simp only [hlen]
          omega
        · intro i hi
          rw [List.mem_range, hlen] at hi
          by_cases h : i < p.entries.length
          · rw [hAtOld i h]
            exact wf3 i (List.mem_range.mpr h)
          · have : i = p.entries.length := by omega
            subst this
            rw [hAtNew]
            exact Nat.le_of_lt hcid
        · intro i hi
          rw [List.mem_range, hlen] at hi
          by_cases h : i < p.entries.length
          · rw [hAtOld i h, hSFeq]
            exact wf4 i (List.mem_range.mpr h)
          · have : i = p.entries.length := by omega
            subst this
            rw [hAtNew, hSFeq]
            have : (⟨v.isWide, v.text, cid⟩ : PoolEntry).view = v := rfl
            rw [this, hci]
        · intro id hid
          rw [hAtOld id (wf2 id hid)]
          exact wf5 id hid
        · rw [hSFeq, hci]
          simp [resolveComparisonId, getElem?_append_sing]
        · intro w c h
          rw [hSFeq]
          exact h
    | none =>
      have hciall := List.find?_eq_none.mp hci
      have hstep : store p v = (p.entries.length,
          insertExistingEntry
            ⟨p.entries ++ [⟨v.isWide, v.text, p.entries.length⟩],
              p.displayIds, p.comparisonIds ++ [p.entries.length]⟩ p.entries.length) := by
        simp [store, hcs, comparisonInsert, hci]
      rw [hstep]
      have hIE : ∃ ds, (∀ x ∈ ds, x = p.entries.length) ∧ (insertExistingEntry
          ⟨p.entries ++ [⟨v.isWide, v.text, p.entries.length⟩],
            p.displayIds, p.comparisonIds ++ [p.entries.length]⟩ p.entries.length) =
          ⟨p.entries ++ [⟨v.isWide, v.text, p.entries.length⟩],
            p.displayIds ++ ds, p.comparisonIds ++ [p.entries.length]⟩ := by
        by_cases h : p.entries.length ∈ p.displayIds
        · refine ⟨[], by simp, ?_⟩
          simp [insertExistingEntry, h]
        · refine ⟨[p.entries.length], by simp, ?_⟩
          simp [insertExistingEntry, h]
      obtain ⟨ds, hds, hIEeq⟩ := hIE
      rw [hIEeq]
      have hSFeq : ∀ w, shardFindCI
          ⟨p.entries ++ [⟨v.isWide, v.text, p.entries.length⟩],
            p.displayIds ++ ds, p.comparisonIds ++ [p.entries.length]⟩ w
          = (shardFindCI p w).or
              (if eqCI (⟨v.isWide, v.text, p.entries.length⟩ : PoolEntry).view w = true
                then some p.entries.length else none) :=
        fun w => shardFindCI_appendBoth rfl rfl wf2 w
      have hlen : (⟨p.entries ++ [⟨v.isWide, v.text, p.entries.length⟩],
          p.displayIds ++ ds, p.comparisonIds ++ [p.entries.length]⟩ : Pool).entries.length
          = p.entries.length + 1 := by simp
      have hAtOld : ∀ i < p.entries.length, entryAt
          ⟨p.entries ++ [⟨v.isWide, v.text, p.entries.length⟩],
            p.displayIds ++ ds, p.comparisonIds ++ [p.entries.length]⟩ i = entryAt p i := by
        intro i hi
        simp [entryAt, getElem?_append_sing, hi]
      have hAtNew : entryAt
          ⟨p.entries ++ [⟨v.isWide, v.text, p.entries.length⟩],
            p.displayIds ++ ds, p.comparisonIds ++ [p.entries.length]⟩ p.entries.length
          = ⟨v.isWide, v.text, p.entries.length⟩ := by
        simp [entryAt, getElem?_append_sing]
      refine ⟨⟨?_, ?_, ?_, ?_, ?_⟩, ?_, ?_,
        ⟨[⟨v.isWide, v.text, p.entries.length⟩], by simp⟩, ⟨[p.entries.length], by simp⟩⟩
      · intro x hx
        rcases List.mem_append.mp hx with h | h
        · have := wf1 x h
          simp only [hlen]
          omega
        · rw [hds x h]
          simp [hlen]
      · intro x hx
        rcases List.mem_append.mp hx with h | h
        · have := wf2 x h
          simp only [hlen]
          omega
        · simp at h
          subst h
          simp [hlen]
      · intro i hi
        rw [List.mem_range, hlen] at hi
        by_cases h : i < p.entries.length
        · rw [hAtOld i h]
          exact wf3 i (List.mem_range.mpr h)
        · have : i = p.entries.length := by omega
          subst this
          rw [hAtNew]
      · intro i hi
        rw [List.mem_range, hlen] at hi
        by_cases h : i < p.entries.length
        · rw [hAtOld i h, hSFeq]
          rw [wf4 i (List.mem_range.mpr h)]
          rfl
        · have : i = p.entries.length := by omega
          subst this
          rw [hAtNew, hSFeq]
          have hv : (⟨v.isWide, v.text, p.entries.length⟩ : PoolEntry).view = v := rfl
          rw [hv, hci, eqCI_refl]
          rfl
      · intro id hid
        rcases List.mem_append.mp hid with h | h
        · rw [hAtOld id (wf2 id h)]
          exact wf5 id h
        · simp at h
          subst h
          rw [hAtNew]
      · rw [hSFeq, hci]
        have hv : (⟨v.isWide, v.text, p.entries.length⟩ : PoolEntry).view = v := rfl
        rw [hv, eqCI_refl]
        simp [resolveComparisonId, getElem?_append_sing]
      · intro w c h
        rw [hSFeq, h]
        rfl

/-! ### Case merge invariant and sentinel equivalence -/

lemma toLowerChar_idem (c : Nat) : toLowerChar (toLowerChar c) = toLowerChar c := by
  unfold toLowerChar
  split_ifs <;> omega

lemma lowerText_idem (t : List Nat) : lowerText (lowerText t) = lowerText t := by
  unfold lowerText
  rw [List.map_map]
  exact List.map_congr_left (fun c _ => toLowerChar_idem c)

lemma entryMatchesCI_query_congr {p : Pool} {id : Nat} {a b : NameView}
    (hw : a.isWide = b.isWide) (ht : lowerText a.text = lowerText b.text) :
    entryMatchesCI p id a = entryMatchesCI p id b := by
  unfold entryMatchesCI
  cases p.entries[id]? with
  | none => rfl
  | some e =>
    simp only [eqCI]
    exact decide_eq_decide.mpr (by rw [hw, ht])

lemma shardFindCI_query_congr {p : Pool} {a b : NameView}
    (hw : a.isWide = b.isWide) (ht : lowerText a.text = lowerText b.text) :
    shardFindCI p a = shardFindCI p b :=
  find?_congr_mem (fun _ _ => entryMatchesCI_query_congr hw ht)

/-- Claim C4: case merge invariant.  On a well-formed pool, storing a view
and then storing its ASCII-lowercase-folded form yields two (possibly
distinct) display ids whose resolved comparison ids coincide; moreover in
the resulting pool every entry's comparison id is at most its own id, so a
comparison entry always precedes any separate display entry referencing
it. -/
theorem case_merge_invariant (p : Pool) (v : NameView) (hWF : WF p) :
    resolveComparisonId (store p v).2 (store p v).1 =
      resolveComparisonId (store (store p v).2 ⟨v.isWide, lowerText v.text⟩).2
        (store (store p v).2 ⟨v.isWide, lowerText v.text⟩).1 ∧
    (∀ i ∈ List.range
        (store (store p v).2 ⟨v.isWide, lowerText v.text⟩).2.entries.length,
      (entryAt (store (store p v).2 ⟨v.isWide, lowerText v.text⟩).2 i).comparisonId ≤ i) := by
  obtain ⟨hWF1, hcomp1, _hstable1, _, _⟩ := store_spec hWF v
  obtain ⟨hWF2, hcomp2, hstable2, _, _⟩ := store_spec hWF1 ⟨v.isWide, lowerText v.text⟩
  constructor
  · have hs : shardFindCI (store (store p v).2 ⟨v.isWide, lowerText v.text⟩).2 v
        = some (resolveComparisonId (store p v).2 (store p v).1) :=
      hstable2 v _ hcomp1
    have hq : shardFindCI (store (store p v).2 ⟨v.isWide, lowerText v.text⟩).2
        ⟨v.isWide, lowerText v.text⟩
        = shardFindCI (store (store p v).2 ⟨v.isWide, lowerText v.text⟩).2 v :=
      shardFindCI_query_congr rfl (lowerText_idem v.text)
    rw [hq, hs] at hcomp2
    exact (Option.some.injEq _ _).mp hcomp2
  · exact hWF2.2.2.1

/-- Witness for C4 at a concrete input: the mixed-case three letter view Abc
stored into the initial pool, then its lowercase fold. -/
theorem case_merge_invariant_witness :
    resolveComparisonId (store initialPool ⟨false, [65, 98, 99]⟩).2
        (store initialPool ⟨false, [65, 98, 99]⟩).1 =
      resolveComparisonId
        (store (store initialPool ⟨false, [65, 98, 99]⟩).2
          ⟨false, lowerText [65, 98, 99]⟩).2
        (store (store initialPool ⟨false, [65, 98, 99]⟩).2
          ⟨false, lowerText [65, 98, 99]⟩).1 :=
  (case_merge_invariant initialPool ⟨false, [65, 98, 99]⟩ (by decide)).1

lemma toLowerChar_eq_e {d : Nat} (h : toLowerChar d = 101) : d = 101 ∨ d = 69 := by
  unfold toLowerChar at h
  split_ifs at h <;> omega

/-- Claim C3: sentinel equivalence.  In any well-formed pool whose entry 0 is
the None entry and whose comparison shard set lists id 0 first (as set up by
pool construction, which registers None before everything else), interning
the empty text (also the view of a null pointer) or any four-character case
variant of None through the public construction path yields a handle that is
equal to the default no-name handle and whose comparison identifier is the
reserved id 0. -/
theorem sentinel_equivalence (p : Pool) (hWF : WF p)
    (h0 : p.entries[0]? = some ⟨false, textNone, 0⟩)
    (hHead : p.comparisonIds.head? = some 0) (t : List Nat)
    (ht : t = [] ∨ (t.length = 4 ∧ lowerText t = lowerText textNone)) :
    fnameEq (makeDetectNumber p ⟨false, t⟩ .FNAME_Add).1 FName.default = true ∧
    (makeDetectNumber p ⟨false, t⟩ .FNAME_Add).1.comparisonId = 0 := by
  rcases ht with ht | ⟨hlen4, hlow⟩
  · subst ht
    constructor <;> rfl
  · have hne : t.length ≠ 0 := by omega
    rcases t with _ | ⟨a, t⟩; · simp at hlen4
    rcases t with _ | ⟨b, t⟩; · simp at hlen4
    rcases t with _ | ⟨c, t⟩; · simp at hlen4
    rcases t with _ | ⟨d, t⟩; · simp at hlen4
    rcases t with _ | ⟨e, t⟩
    case cons.cons.cons.cons.cons => simp at hlen4
    simp only [lowerText, List.map_cons, List.map_nil, textNone] at hlow
    have hd : toLowerChar d = 101 := by
      have h4 := congrArg (fun l => List.getD l 3 0) hlow
      simp only [List.getD_cons_succ, List.getD_cons_zero] at h4
      exact h4.trans rfl
    have hddig : isDigitCode d = false := by
      rcases toLowerChar_eq_e hd with h | h <;> subst h <;> rfl
    have htd : trailingDigits [a, b, c, d] = 0 := by
      simp [trailingDigits, List.takeWhile, hddig]
    have hparse : parseNumber [a, b, c, d] = (NAME_NO_NUMBER_INTERNAL, [a, b, c, d]) := by
      unfold parseNumber
      rw [htd]
      simp
    have hmd : makeDetectNumber p ⟨false, [a, b, c, d]⟩ .FNAME_Add
        = make p ⟨false, [a, b, c, d]⟩ .FNAME_Add 0 := by
      unfold makeDetectNumber
      rw [hparse]
      simp [makeWithNumber, NAME_NO_NUMBER_INTERNAL]
    have hsize : ¬ NAME_SIZE ≤ ([a, b, c, d] : List Nat).length := by
      simp [NAME_SIZE]
    have hmk : make p ⟨false, [a, b, c, d]⟩ .FNAME_Add 0
        = (⟨resolveComparisonId (store p ⟨false, [a, b, c, d]⟩).2
              (store p ⟨false, [a, b, c, d]⟩).1,
            (store p ⟨false, [a, b, c, d]⟩).1, 0⟩,
           (store p ⟨false, [a, b, c, d]⟩).2) := by
      unfold make
      rw [if_neg hsize]
    obtain ⟨_, hcomp, _, ⟨es, hes⟩, ⟨cs, hcs⟩⟩ := store_spec hWF ⟨false, [a, b, c, d]⟩
    obtain ⟨rest, hrest⟩ : ∃ rest, p.comparisonIds = 0 :: rest := by
      rcases hcl : p.comparisonIds with _ | ⟨x, r⟩
      · rw [hcl] at hHead
        simp at hHead
      · rw [hcl] at hHead
        simp at hHead
        exact ⟨r, by rw [hHead]⟩
    have h0' : (store p ⟨false, [a, b, c, d]⟩).2.entries[0]?
        = some ⟨false, textNone, 0⟩ := by
      rw [hes, List.getElem?_append]
      have : 0 < p.entries.length := by
        by_contra h
        rw [List.getElem?_eq_none (by omega)] at h0
        cases h0
      rw [if_pos this]
      exact h0
    have hmatch0 : entryMatchesCI (store p ⟨false, [a, b, c, d]⟩).2 0
        ⟨false, [a, b, c, d]⟩ = true := by
      rw [entryMatchesCI, h0']
      simp only [eqCI, PoolEntry.view]
      apply decide_eq_true
      constructor
      · trivial
      · simp only [lowerText, List.map_cons, List.map_nil, textNone]
        rw [hlow]
    have hfind0 : shardFindCI (store p ⟨false, [a, b, c, d]⟩).2
        ⟨false, [a, b, c, d]⟩ = some 0 := by
      unfold shardFindCI
      rw [hcs, hrest]
      simp only [List.cons_append]
      exact List.find?_cons_of_pos _ hmatch0
    rw [hfind0] at hcomp
    have hcid : resolveComparisonId (store p ⟨false, [a, b, c, d]⟩).2
        (store p ⟨false, [a, b, c, d]⟩).1 = 0 :=
      ((Option.some.injEq _ _).mp hcomp).symm
    rw [hmd, hmk]
    constructor
    · simp [fnameEq, FName.default, hcid]
    · exact hcid

/-- Witness for C3 at concrete inputs: the initial pool with the mixed-case
variant nOnE and with the empty text. -/
theorem sentinel_equivalence_witness :
    (fnameEq (makeDetectNumber initialPool ⟨false, [110, 79, 110, 69]⟩ .FNAME_Add).1
        FName.default = true ∧
      (makeDetectNumber initialPool ⟨false, [110, 79, 110, 69]⟩ .FNAME_Add).1.comparisonId
        = 0) ∧
    (fnameEq (makeDetectNumber initialPool ⟨false, []⟩ .FNAME_Add).1
        FName.default = true ∧
      (makeDetectNumber initialPool ⟨false, []⟩ .FNAME_Add).1.comparisonId = 0) :=
  ⟨sentinel_equivalence initialPool (by decide) (by decide) (by decide)
      [110, 79, 110, 69] (Or.inr (by decide)),
    sentinel_equivalence initialPool (by decide) (by decide) (by decide)
      [] (Or.inl rfl)⟩

/-! ### Find-only mode -/

/-- Claim C9: the find-only mode never allocates: for a text below the
length cap, `FNAME_Find` construction returns the pool unchanged (entry
list, both shard sets and every other component identical), and on a miss of
both probes (display shard then comparison shard) it yields the explicit
absent identifier pair zero rather than an error. -/
theorem find_only_never_allocates (p : Pool) (v : NameView) (n : Nat)
    (hlen : v.text.length < NAME_SIZE) :
    (make p v .FNAME_Find n).2 = p ∧
    (shardFindCS p v = none → shardFindCI p v = none →
      (make p v .FNAME_Find n).1 = ⟨0, 0, n⟩) := by
  constructor
  · simp [make, Nat.not_le.mpr hlen]
  · intro h1 h2
    simp [make, Nat.not_le.mpr hlen, poolFind, h1, h2]

/-- Witness for C9: a find-only probe of the single-character text x against
the initial pool misses both shards and changes nothing. -/
theorem find_only_never_allocates_witness :
    (make initialPool ⟨false, [120]⟩ .FNAME_Find 0).2 = initialPool ∧
    (make initialPool ⟨false, [120]⟩ .FNAME_Find 0).1 = ⟨0, 0, 0⟩ := by
  have h := find_only_never_allocates initialPool ⟨false, [120]⟩ 0 (by decide)
  exact ⟨h.1, h.2 (by decide) (by decide)⟩

/-! ### Batch serialization -/

/-- Little-endian byte serialization of a 64-bit value; `INTEL_ORDER64` is
the identity on the little-endian platforms this translation unit asserts
via `static_assert(PLATFORM_LITTLE_ENDIAN, ...)`. -/
def le64 (n : Nat) : List Nat :=
  [n % 256, n / 256 % 256, n / 256 ^ 2 % 256, n / 256 ^ 3 % 256,
   n / 256 ^ 4 % 256, n / 256 ^ 5 % 256, n / 256 ^ 6 % 256, n / 256 ^ 7 % 256]

/-- Read 8 bytes little-endian. -/
def readLe64 (bytes : List Nat) (pos : Nat) : Nat :=
  bytes.getD pos 0 + 256 * bytes.getD (pos + 1) 0 + 256 ^ 2 * bytes.getD (pos + 2) 0 +
  256 ^ 3 * bytes.getD (pos + 3) 0 + 256 ^ 4 * bytes.getD (pos + 4) 0 +
  256 ^ 5 * bytes.getD (pos + 5) 0 + 256 ^ 6 * bytes.getD (pos + 6) 0 +
  256 ^ 7 * bytes.getD (pos + 7) 0

/-- FNameHash::AlgorithmId, the hash algorithm version tag. -/
def algorithmId : Nat := 0xC1640000

/-- Models `FSerializedNameHeader`: two bytes, top bit of the first byte is
the is-utf16 flag, the remaining 15 bits hold the length (the source casts
`Len >> 8` to uint8; lengths are checked against NAME_SIZE, far below
2^15). -/
def headerBytes (len : Nat) (w : Bool) : List Nat :=
  [(if w then 128 else 0) + len / 256 % 256, len % 256]

/-- UTF16 little-endian code units of a wide text. -/
def utf16Bytes (text : List Nat) : List Nat :=
  text.flatMap (fun c => [c % 256, c / 256 % 256])

/-- Models `SaveAnsiOrUtf16Name`: append the header, then for wide names an
optional single zero pad byte re-aligning the buffer to 2 (AlignTo), then
the raw bytes with no terminator. -/
def saveName (buf : List Nat) (v : NameView) : List Nat :=
  if v.isWide then
    let buf1 := buf ++ headerBytes v.text.length v.isWide
    let buf2 := if buf1.length % 2 = 1 then buf1 ++ [0] else buf1
    buf2 ++ utf16Bytes v.text
  else
    (buf ++ headerBytes v.text.length v.isWide) ++ v.text

/-- Modelled from the spec: `CityHash64` lives in the external header
Hash/CityHash.h, outside this repository.  The spec requires only a
deterministic 64-bit hash of the raw bytes; it is modelled as a 64-bit FNV
style fold over the serialized bytes. -/
def cityHash64 (bytes : List Nat) : Nat :=
  bytes.foldl (fun h b => (h * 1099511628211 + b) % 2 ^ 64) 14695981039346656037

/-- The byte image of a view as stored in the name-data stream. -/
def viewBytes (v : NameView) : List Nat := if v.isWide then utf16Bytes v.text else v.text

/-- Models `FNameHash::GenerateLowerCaseHash`: lowercase every code unit,
then hash the raw bytes. -/
def generateLowerCaseHash (v : NameView) : Nat :=
  cityHash64 (viewBytes ⟨v.isWide, lowerText v.text⟩)

/-- Models `SaveNameBatch`: both output buffers are emptied first, so prior
buffer contents are discarded; the hash stream starts with the algorithm
version tag; then, per input id in input order, one name record is appended
to the name-data stream and one lowercase hash to the hash-data stream. -/
def saveNameBatch (p : Pool) (ids : List Nat)
    (_prevNameData _prevHashData : List Nat) : List Nat × List Nat :=
  ids.foldl
    (fun acc id =>
      (saveName acc.1 (entryAt p id).view,
        acc.2 ++ le64 (generateLowerCaseHash (entryAt p id).view)))
    ([], le64 algorithmId)

/-- Models `FNamePool::BatchStore`: a comparison-shard-only insert under the
batch lock. -/
def batchStore (p : Pool) (v : NameView) : Nat × Pool :=
  ((comparisonInsert p v).id, (comparisonInsert p v).pool)

/-- Models `LoadNameHeader`: read the two header bytes, for utf16 data skip
the pad byte when the data pointer is odd (the stream base is 8-aligned, so
pointer parity equals position parity), then view the payload bytes. -/
def loadNameHeader (bytes : List Nat) (pos : Nat) : NameView × Nat :=
  let b0 := bytes.getD pos 0
  let b1 := bytes.getD (pos + 1) 0
  let len := b0 % 128 * 256 + b1
  if 128 ≤ b0 then
    let dataPos := pos + 2 + (pos + 2) % 2
    (⟨true, (List.range len).map (fun i =>
        bytes.getD (dataPos + 2 * i) 0 + 256 * bytes.getD (dataPos + 2 * i + 1) 0)⟩,
      dataPos + 2 * len)
  else
    (⟨false, (List.range len).map (fun i => bytes.getD (pos + 2 + i) 0)⟩, pos + 2 + len)

/-- The hash-guided load loop of `LoadNameBatch` (one iteration per stored
hash; the precomputed hash only steers shard/slot selection and cannot
change which entry a comparison probe finds, so it does not appear in the
returned ids). -/
def loadLoopHashed (p : Pool) (nameData : List Nat) (pos : Nat) :
    Nat → List Nat × Pool
  | 0 => ([], p)
  | n + 1 =>
    let r := loadNameHeader nameData pos
    let s := batchStore p r.1
    let rest := loadLoopHashed s.2 nameData r.2 n
    (s.1 :: rest.1, rest.2)

/-- The fallback load loop of `LoadNameBatch` used on a hash version
mismatch: walk the name-data stream to its end, rehashing each name (fuel
bounded; each record is at least two bytes). -/
def loadLoopFallback (p : Pool) (nameData : List Nat) (pos : Nat) :
    Nat → List Nat × Pool
  | 0 => ([], p)
  | fuel + 1 =>
    if pos < nameData.length then
      let r := loadNameHeader nameData pos
      let s := batchStore p r.1
      let rest := loadLoopFallback s.2 nameData r.2 fuel
      (s.1 :: rest.1, rest.2)
    else ([], p)

/-- Models `LoadNameBatch`: read the hash version tag; on a match insert one
name per stored hash using the precomputed hashes, otherwise walk the whole
name stream recomputing hashes.  Returns the loaded ids in stream order. -/
def loadNameBatch (p : Pool) (nameData hashData : List Nat) : List Nat × Pool :=
  if readLe64 hashData 0 = algorithmId then
    loadLoopHashed p nameData 0 (hashData.length / 8 - 1)
  else
    loadLoopFallback p nameData 0 nameData.length

/-! ### Serialization determinism -/

/-- Claim C6: serialization determinism.  `SaveNameBatch` discards the prior
contents of its output buffers, so two calls with the same pool and input id
sequence produce byte-identical name-data and hash-data streams regardless
of prior buffer contents; and appending an input id appends exactly that
id's name record and hash record at the end of the two streams, so output
record order follows input order with no reordering by hash or content. -/
theorem save_name_batch_deterministic (p : Pool) (ids : List Nat)
    (b1 b2 b3 b4 : List Nat) :
    saveNameBatch p ids b1 b2 = saveNameBatch p ids b3 b4 ∧
    (∀ id, saveNameBatch p (ids ++ [id]) b1 b2 =
      (saveName (saveNameBatch p ids b1 b2).1 (entryAt p id).view,
        (saveNameBatch p ids b1 b2).2
          ++ le64 (generateLowerCaseHash (entryAt p id).view))) := by
  refine ⟨rfl, ?_⟩
  intro id
  unfold saveNameBatch
  rw [List.foldl_append]
  simp only [List.foldl_cons, List.foldl_nil]

/-! ### Round-trip serialization -/

lemma getD_append_offset (l l' : List Nat) (i : Nat) :
    (l ++ l').getD (l.length + i) 0 = l'.getD i 0 := by
  rw [List.getD_eq_getElem?_getD, List.getD_eq_getElem?_getD,
    List.getElem?_append_right (by omega)]
  have e : l.length + i - l.length = i := by omega
  rw [e]

lemma getD_append_lt {l l' : List Nat} {i : Nat} (h : i < l.length) :
    (l ++ l').getD i 0 = l.getD i 0 :=
  List.getD_append _ _ _ _ h

lemma map_getD_range (t : List Nat) :
    (List.range t.length).map (fun i => t.getD i 0) = t := by
  apply List.ext_getElem (by simp)
  intro n h1 h2
  rw [List.getElem_map, List.getElem_range]
  exact List.getD_eq_getElem t 0 h2

lemma headerBytes_length (len : Nat) (w : Bool) : (headerBytes len w).length = 2 := rfl

lemma utf16Bytes_cons (c : Nat) (t : List Nat) :
    utf16Bytes (c :: t) = c % 256 :: c / 256 % 256 :: utf16Bytes t := by
  simp [utf16Bytes]

lemma utf16Bytes_length (t : List Nat) : (utf16Bytes t).length = 2 * t.length := by
  induction t with
  | nil => rfl
  | cons c t ih =>
    rw [utf16Bytes_cons]
    simp only [List.length_cons, ih]
    omega

lemma utf16Bytes_getD (t : List Nat) : ∀ i < t.length,
    (utf16Bytes t).getD (2 * i) 0 = t.getD i 0 % 256 ∧
    (utf16Bytes t).getD (2 * i + 1) 0 = t.getD i 0 / 256 % 256 := by
  induction t with
  | nil =>
    intro i h
    simp at h
  | cons c t ih =>
    intro i h
    rw [utf16Bytes_cons]
    cases i with
    | zero => simp
    | succ j =>
      have hj : j < t.length := by simpa using h
      have e1 : 2 * (j + 1) = 2 * j + 1 + 1 := by ring
      rw [e1]
      simp only [List.getD_cons_succ]
      exact ih j hj

lemma saveName_ansi (buf : List Nat) (t : List Nat) :
    saveName buf ⟨false, t⟩ = buf ++ (headerBytes t.length false ++ t) := by
  simp [saveName, List.append_assoc]

lemma saveName_wide (buf : List Nat) (t : List Nat) :
    saveName buf ⟨true, t⟩ = buf ++ (headerBytes t.length true ++
      ((if (buf.length + 2) % 2 = 1 then [0] else []) ++ utf16Bytes t)) := by
  have h2 : (buf.length + 2) % 2 = buf.length % 2 := by omega
  by_cases h : buf.length % 2 = 1
  · simp [saveName, headerBytes_length, h2, h, List.append_assoc]
  · simp [saveName, headerBytes_length, h2, h, List.append_assoc]

lemma saveName_extends (buf : List Nat) (v : NameView) :
    ∃ e, saveName buf v = buf ++ e := by
  cases v with
  | mk w t =>
    cases w
    · exact ⟨_, saveName_ansi buf t⟩
    · exact ⟨_, saveName_wide buf t⟩

/-- The name-data stream produced by the save loop. -/
def nameStream (p : Pool) (ids : List Nat) (buf : List Nat) : List Nat :=
  ids.foldl (fun b id => saveName b (entryAt p id).view) buf

/-- The hash-data stream produced by the save loop. -/
def hashStream (p : Pool) (ids : List Nat) : List Nat :=
  le64 algorithmId ++ ids.flatMap (fun id => le64 (generateLowerCaseHash (entryAt p id).view))

lemma saveNameBatch_eq (p : Pool) (ids : List Nat) (b1 b2 : List Nat) :
    saveNameBatch p ids b1 b2 = (nameStream p ids [], hashStream p ids) := by
  suffices h : ∀ (l : List Nat) (a b : List Nat),
      l.foldl (fun acc id => (saveName acc.1 (entryAt p id).view,
        acc.2 ++ le64 (generateLowerCaseHash (entryAt p id).view))) (a, b)
      = (l.foldl (fun x id => saveName x (entryAt p id).view) a,
         b ++ l.flatMap (fun id => le64 (generateLowerCaseHash (entryAt p id).view))) by
    unfold saveNameBatch nameStream hashStream
    rw [h]
  intro l
  induction l with
  | nil =>
    intro a b
    simp
  | cons x l ih =>
    intro a b
    simp only [List.foldl_cons, List.flatMap_cons, ih, List.append_assoc]

lemma hashStream_length (p : Pool) (ids : List Nat) :
    (hashStream p ids).length = 8 + 8 * ids.length := by
  unfold hashStream
  rw [List.length_append]
  have h8 : (le64 algorithmId).length = 8 := rfl
  rw [h8]
  congr 1
  induction ids with
  | nil => rfl
  | cons x l ih =>
    rw [List.flatMap_cons, List.length_append, ih]
    have h1 : (le64 (generateLowerCaseHash (entryAt p x).view)).length = 8 := rfl
    rw [h1]
    simp only [List.length_cons]
    ring

lemma readLe64_front (x rest : List Nat) (h : 8 ≤ x.length) :
    readLe64 (x ++ rest) 0 = readLe64 x 0 := by
  unfold readLe64
  rw [getD_append_lt (by omega), getD_append_lt (by omega), getD_append_lt (by omega),
    getD_append_lt (by omega), getD_append_lt (by omega), getD_append_lt (by omega),
    getD_append_lt (by omega), getD_append_lt (by omega)]

lemma hashStream_version (p : Pool) (ids : List Nat) :
    readLe64 (hashStream p ids) 0 = algorithmId := by
  unfold hashStream
  rw [readLe64_front _ _ (by decide)]
  decide

lemma nameStream_cons (p : Pool) (id : Nat) (ids : List Nat) (buf : List Nat) :
    nameStream p (id :: ids) buf = nameStream p ids (saveName buf (entryAt p id).view) := rfl

lemma nameStream_extends (p : Pool) (ids : List Nat) :
    ∀ buf, ∃ d, nameStream p ids buf = buf ++ d := by
  induction ids with
  | nil => intro buf; exact ⟨[], by simp [nameStream]⟩
  | cons id ids ih =>
    intro buf
    obtain ⟨e, he⟩ := saveName_extends buf (entryAt p id).view
    obtain ⟨d, hd⟩ := ih (saveName buf (entryAt p id).view)
    exact ⟨e ++ d, by rw [nameStream_cons, hd, he, List.append_assoc]⟩

lemma loadNameHeader_ansi (buf t rest : List Nat) (hlen : t.length < 2 ^ 15)
    (_hc : ∀ c ∈ t, c < 256) :
    loadNameHeader (saveName buf ⟨false, t⟩ ++ rest) buf.length
      = (⟨false, t⟩, (saveName buf ⟨false, t⟩).length) := by
  rw [saveName_ansi, List.append_assoc]
  have hX : headerBytes t.length false ++ t ++ rest
      = (0 + t.length / 256 % 256) :: t.length % 256 :: (t ++ rest) := by
    simp [headerBytes]
  have hdiv : t.length / 256 % 256 = t.length / 256 := by omega
  have hb0 : (buf ++ (headerBytes t.length false ++ t ++ rest)).getD buf.length 0
      = t.length / 256 := by
    have h0 := getD_append_offset buf (headerBytes t.length false ++ t ++ rest) 0
    rw [Nat.add_zero] at h0
    rw [h0, hX]
    simp [hdiv]
  have hb1 : (buf ++ (headerBytes t.length false ++ t ++ rest)).getD (buf.length + 1) 0
      = t.length % 256 := by
    rw [getD_append_offset, hX]
    rfl
  have hsmall : t.length / 256 < 128 := by omega
  unfold loadNameHeader
  rw [hb0, hb1]
  rw [if_neg (by omega)]
  have hlenrec : t.length / 256 % 128 * 256 + t.length % 256 = t.length := by omega
  rw [hlenrec]
  have htext : (List.range t.length).map
      (fun i => (buf ++ (headerBytes t.length false ++ t ++ rest)).getD (buf.length + 2 + i) 0)
      = t := by
    have hstep : ∀ i < t.length,
        (buf ++ (headerBytes t.length false ++ t ++ rest)).getD (buf.length + 2 + i) 0
        = t.getD i 0 := by
      intro i hi
      have e : buf.length + 2 + i = buf.length + (i + 1 + 1) := by ring
      rw [e, getD_append_offset, hX]
      simp only [List.getD_cons_succ]
      exact getD_append_lt hi
    have hmc : (List.range t.length).map
        (fun i => (buf ++ (headerBytes t.length false ++ t ++ rest)).getD (buf.length + 2 + i) 0)
        = (List.range t.length).map (fun i => t.getD i 0) :=
      List.map_congr_left (fun i hi => hstep i (List.mem_range.mp hi))
    rw [hmc, map_getD_range]
  rw [htext]
  have hfinal : (buf ++ (headerBytes t.length false ++ t)).length
      = buf.length + 2 + t.length := by
    simp only [List.length_append, headerBytes_length]
    omega
  rw [hfinal]

lemma loadNameHeader_wide (buf t rest : List Nat) (hlen : t.length < 2 ^ 15)
    (hc : ∀ c ∈ t, c < 65536) :
    loadNameHeader (saveName buf ⟨true, t⟩ ++ rest) buf.length
      = (⟨true, t⟩, (saveName buf ⟨true, t⟩).length) := by
  rw [saveName_wide, List.append_assoc, List.append_assoc]
  set pad : List Nat := if (buf.length + 2) % 2 = 1 then [0] else [] with hpad
  have hX : headerBytes t.length true ++ ((pad ++ utf16Bytes t) ++ rest)
      = (128 + t.length / 256 % 256) :: t.length % 256 :: ((pad ++ utf16Bytes t) ++ rest) := by
    simp [headerBytes]
  have hdiv : t.length / 256 % 256 = t.length / 256 := by omega
  have hb0 : (buf ++ (headerBytes t.length true ++ ((pad ++ utf16Bytes t) ++ rest))).getD
      buf.length 0 = 128 + t.length / 256 := by
    have h0 := getD_append_offset buf
      (headerBytes t.length true ++ ((pad ++ utf16Bytes t) ++ rest)) 0
    rw [Nat.add_zero] at h0
    rw [h0, hX]
    simp [hdiv]
  have hb1 : (buf ++ (headerBytes t.length true ++ ((pad ++ utf16Bytes t) ++ rest))).getD
      (buf.length + 1) 0 = t.length % 256 := by
    rw [getD_append_offset, hX]
    rfl
  have hsmall : t.length / 256 < 128 := by omega
  unfold loadNameHeader
  rw [hb0, hb1]
  rw [if_pos (by omega)]
  have hlenrec : (128 + t.length / 256) % 128 * 256 + t.length % 256 = t.length := by omega
  rw [hlenrec]
  have hpadlen : pad.length = (buf.length + 2) % 2 := by
    rw [hpad]
    by_cases h : (buf.length + 2) % 2 = 1
    · simp [h]
    · have : (buf.length + 2) % 2 = 0 := by omega
      simp [h, this]
  have hdata : ∀ i, (buf ++ (headerBytes t.length true ++ ((pad ++ utf16Bytes t) ++ rest))).getD
      (buf.length + 2 + (buf.length + 2) % 2 + i) 0 = (utf16Bytes t ++ rest).getD i 0 := by
    intro i
    have e : buf.length + 2 + (buf.length + 2) % 2 + i
        = buf.length + (pad.length + i + 1 + 1) := by
      rw [hpadlen]
      ring
    rw [e, getD_append_offset, hX]
    simp only [List.getD_cons_succ]
    rw [List.append_assoc]
    exact getD_append_offset pad (utf16Bytes t ++ rest) i
  have htext : (List.range t.length).map
      (fun i => (buf ++ (headerBytes t.length true ++ ((pad ++ utf16Bytes t) ++ rest))).getD
        (buf.length + 2 + (buf.length + 2) % 2 + 2 * i) 0
        + 256 * (buf ++ (headerBytes t.length true ++ ((pad ++ utf16Bytes t) ++ rest))).getD
        (buf.length + 2 + (buf.length + 2) % 2 + 2 * i + 1) 0)
      = t := by
    have hstep : ∀ i < t.length,
        (buf ++ (headerBytes t.length true ++ ((pad ++ utf16Bytes t) ++ rest))).getD
          (buf.length + 2 + (buf.length + 2) % 2 + 2 * i) 0
        + 256 * (buf ++ (headerBytes t.length true ++ ((pad ++ utf16Bytes t) ++ rest))).getD
          (buf.length + 2 + (buf.length + 2) % 2 + 2 * i + 1) 0
        = t.getD i 0 := by
      intro i hi
      have e1 : buf.length + 2 + (buf.length + 2) % 2 + 2 * i + 1
          = buf.length + 2 + (buf.length + 2) % 2 + (2 * i + 1) := by ring
      rw [e1, hdata (2 * i), hdata (2 * i + 1)]
      have hlo : (utf16Bytes t ++ rest).getD (2 * i) 0 = t.getD i 0 % 256 := by
        rw [getD_append_lt (by rw [utf16Bytes_length]; omega)]
        exact (utf16Bytes_getD t i hi).1
      have hhi : (utf16Bytes t ++ rest).getD (2 * i + 1) 0 = t.getD i 0 / 256 % 256 := by
        rw [getD_append_lt (by rw [utf16Bytes_length]; omega)]
        exact (utf16Bytes_getD t i hi).2
      rw [hlo, hhi]
      have hcb : t.getD i 0 < 65536 := by
        have hm : t.getD i 0 ∈ t := by
          rw [List.getD_eq_getElem t 0 hi]
          exact List.getElem_mem hi
        exact hc _ hm
      omega
    have hmc : (List.range t.length).map
        (fun i => (buf ++ (headerBytes t.length true ++ ((pad ++ utf16Bytes t) ++ rest))).getD
          (buf.length + 2 + (buf.length + 2) % 2 + 2 * i) 0
          + 256 * (buf ++ (headerBytes t.length true ++ ((pad ++ utf16Bytes t) ++ rest))).getD
          (buf.length + 2 + (buf.length + 2) % 2 + 2 * i + 1) 0)
        = (List.range t.length).map (fun i => t.getD i 0) :=
      List.map_congr_left (fun i hi => hstep i (List.mem_range.mp hi))
    rw [hmc, map_getD_range]
  show ((⟨true, (List.range t.length).map (fun i =>
      (buf ++ (headerBytes t.length true ++ ((pad ++ utf16Bytes t) ++ rest))).getD
        (buf.length + 2 + (buf.length + 2) % 2 + 2 * i) 0
      + 256 * (buf ++ (headerBytes t.length true ++ ((pad ++ utf16Bytes t) ++ rest))).getD
        (buf.length + 2 + (buf.length + 2) % 2 + 2 * i + 1) 0)⟩ : NameView),
    buf.length + 2 + (buf.length + 2) % 2 + 2 * t.length)
    = (⟨true, t⟩, (buf ++ (headerBytes t.length true ++ (pad ++ utf16Bytes t))).length)
  have hfinal : (buf ++ (headerBytes t.length true ++ (pad ++ utf16Bytes t))).length
      = buf.length + 2 + (buf.length + 2) % 2 + 2 * t.length := by
    simp only [List.length_append, headerBytes_length, utf16Bytes_length, hpadlen]
    omega
  rw [htext, hfinal]

/-- Hypotheses on one saved id: a comparison entry with in-range payload. -/
def SavableId (p : Pool) (id : Nat) : Prop :=
  id ∈ p.comparisonIds ∧ (entryAt p id).text.length ≤ 1023 ∧
  ((entryAt p id).isWide = true → ∀ c ∈ (entryAt p id).text, c < 65536) ∧
  ((entryAt p id).isWide = false → ∀ c ∈ (entryAt p id).text, c < 256)

instance (p : Pool) (id : Nat) : Decidable (SavableId p id) := by
  unfold SavableId
  infer_instance

lemma loadNameHeader_entry (p : Pool) (id : Nat) (h : SavableId p id)
    (buf rest : List Nat) :
    loadNameHeader (saveName buf (entryAt p id).view ++ rest) buf.length
      = ((entryAt p id).view, (saveName buf (entryAt p id).view).length) := by
  obtain ⟨_, hl, hw, ha⟩ := h
  cases he : (entryAt p id).isWide
  · have hv : (entryAt p id).view = ⟨false, (entryAt p id).text⟩ := by
      simp [PoolEntry.view, he]
    rw [hv]
    exact loadNameHeader_ansi buf _ rest (by omega) (ha he)
  · have hv : (entryAt p id).view = ⟨true, (entryAt p id).text⟩ := by
      simp [PoolEntry.view, he]
    rw [hv]
    exact loadNameHeader_wide buf _ rest (by omega) (hw he)

lemma batchStore_comparison (p : Pool) (hWF : WF p) (id : Nat)
    (hmem : id ∈ p.comparisonIds) :
    batchStore p (entryAt p id).view = (id, p) := by
  obtain ⟨_, wf2, _, wf4, wf5⟩ := hWF
  have hlt := wf2 id hmem
  have hfind : shardFindCI p (entryAt p id).view = some id := by
    rw [wf4 id (List.mem_range.mpr hlt), wf5 id hmem]
  unfold batchStore comparisonInsert
  rw [hfind]

lemma loadLoopHashed_roundtrip (p : Pool) (hWF : WF p) :
    ∀ (ids : List Nat) (buf : List Nat), (∀ id ∈ ids, SavableId p id) →
      loadLoopHashed p (nameStream p ids buf) buf.length ids.length = (ids, p) := by
  intro ids
  induction ids with
  | nil => intro buf _; rfl
  | cons id ids ih =>
    intro buf hids
    have hid := hids id (by simp)
    obtain ⟨d, hd⟩ := nameStream_extends p ids (saveName buf (entryAt p id).view)
    have hparse : loadNameHeader (nameStream p ids (saveName buf (entryAt p id).view))
        buf.length = ((entryAt p id).view, (saveName buf (entryAt p id).view).length) := by
      rw [hd]
      exact loadNameHeader_entry p id hid buf d
    have hbs := batchStore_comparison p hWF id hid.1
    have hrec := ih (saveName buf (entryAt p id).view) (fun x hx => hids x (by simp [hx]))
    rw [nameStream_cons]
    simp only [List.length_cons, loadLoopHashed, hparse, hbs, hrec]

/-- The pool exhibiting the failure of the original claim: the lowercase
three letter text abc is interned (comparison entry 0), then its uppercase
variant (a separate display-only entry, id 1, back-referencing 0). -/
def displayPool : Pool :=
  (store (store emptyPool ⟨false, [97, 98, 99]⟩).2 ⟨false, [65, 66, 67]⟩).2

/-- Counterexample to C5 as stated: id 1 is an interned identifier (it is
returned by the second store), yet saving the one-element batch containing
it and loading the result yields id 0 (its comparison identifier), not
id 1. -/
theorem roundtrip_display_id_counterexample :
    (store (store emptyPool ⟨false, [97, 98, 99]⟩).2 ⟨false, [65, 66, 67]⟩).1 = 1 ∧
    (loadNameBatch displayPool (saveNameBatch displayPool [1] [] []).1
      (saveNameBatch displayPool [1] [] []).2).1 = [0] := by
  constructor
  · decide
  · decide

/-- Claim C5 (amended): round-trip serialization for comparison identifiers.
For every sequence of comparison-shard identifiers with in-range payloads,
including duplicates and the empty sequence, loading the saved name-data and
hash-data streams yields exactly the input sequence in order, and the pool
is unchanged. -/
theorem load_save_roundtrip (p : Pool) (ids : List Nat) (b1 b2 : List Nat)
    (hWF : WF p) (hids : ∀ id ∈ ids, SavableId p id) :
    loadNameBatch p (saveNameBatch p ids b1 b2).1 (saveNameBatch p ids b1 b2).2
      = (ids, p) := by
  rw [saveNameBatch_eq]
  show loadNameBatch p (nameStream p ids []) (hashStream p ids) = (ids, p)
  unfold loadNameBatch
  rw [if_pos (hashStream_version p ids)]
  have hcount : (hashStream p ids).length / 8 - 1 = ids.length := by
    rw [hashStream_length]
    omega
  rw [hcount]
  have h := loadLoopHashed_roundtrip p hWF ids [] hids
  simpa using h

/-- Witness for the amended C5 at a concrete input: the initial pool
extended with a narrow and a wide comparison entry, saved and reloaded with
a duplicate id in the batch. -/
theorem load_save_roundtrip_witness :
    loadNameBatch
        (store (store initialPool ⟨false, [97, 98, 99]⟩).2 ⟨true, [97, 60000]⟩).2
        (saveNameBatch
          (store (store initialPool ⟨false, [97, 98, 99]⟩).2 ⟨true, [97, 60000]⟩).2
          [0, 1, 2, 0] [] []).1
        (saveNameBatch
          (store (store initialPool ⟨false, [97, 98, 99]⟩).2 ⟨true, [97, 60000]⟩).2
          [0, 1, 2, 0] [] []).2
      = ([0, 1, 2, 0],
        (store (store initialPool ⟨false, [97, 98, 99]⟩).2 ⟨true, [97, 60000]⟩).2) :=
  load_save_roundtrip _ [0, 1, 2, 0] [] [] (by decide) (by decide)

/-! ### Loading a serialized name entry from an archive -/

/-- Model of the `FArchive` state used by the `FNameEntrySerialized` load
path: the backing bytes, the read position, the critical-error flag set by
`SetCriticalError`, the `GetMaxSerializeSize` limit, and whether the archive
version is at least `VER_UE4_NAME_HASHES_SERIALIZED` (which adds four bytes
of dead hash data per entry). -/
structure MArchive where
  data : List Nat
  pos : Nat
  criticalErr : Bool
  maxSerializeSize : Int
  hashesSerialized : Bool
deriving DecidableEq

/-- MIN_int32, the one negative length marker that cannot be negated. -/
def MIN_int32 : Int := -2147483648

/-- Read four bytes little-endian as an unsigned 32-bit value and
reinterpret as a signed int32 (`Ar << StringLen`). -/
def readInt32 (a : MArchive) : Int :=
  let u : Nat := a.data.getD a.pos 0 + 256 * a.data.getD (a.pos + 1) 0 +
    65536 * a.data.getD (a.pos + 2) 0 + 16777216 * a.data.getD (a.pos + 3) 0
  if u < 2 ^ 31 then (u : Int) else (u : Int) - 2 ^ 32

/-- Model of a loaded `FNameEntrySerialized`. -/
structure MNameEntrySerialized where
  bIsWide : Bool
  name : List Nat
deriving DecidableEq

/-- Models the loading branch of
`operator<<(FArchive&, FNameEntrySerialized&)`: read the 32-bit length; a
negative length marks a wide string.  A length equal to `MIN_int32` cannot
be negated, so the archive is marked with a critical (stream corruption)
error and the function returns without reading the entry; a length beyond
`GetMaxSerializeSize` likewise.  Otherwise the payload is read (two bytes
per wide character, one per ansi character) and the dead hash bytes are
skipped on new-enough archive versions. -/
def loadNameEntrySerialized (a : MArchive) : MArchive × Option MNameEntrySerialized :=
  let sLen := readInt32 a
  let a1 : MArchive := ⟨a.data, a.pos + 4, a.criticalErr, a.maxSerializeSize,
    a.hashesSerialized⟩
  if sLen < 0 then
    if sLen = MIN_int32 then
      (⟨a1.data, a1.pos, true, a1.maxSerializeSize, a1.hashesSerialized⟩, none)
    else
      let len := (-sLen).toNat
      if 0 < a.maxSerializeSize ∧ a.maxSerializeSize < (len : Int) then
        (⟨a1.data, a1.pos, true, a1.maxSerializeSize, a1.hashesSerialized⟩, none)
      else
        let name := (List.range len).map (fun i =>
          a1.data.getD (a1.pos + 2 * i) 0 + 256 * a1.data.getD (a1.pos + 2 * i + 1) 0)
        let afterStr := a1.pos + 2 * len
        (⟨a1.data, if a.hashesSerialized then afterStr + 4 else afterStr,
          a1.criticalErr, a1.maxSerializeSize, a1.hashesSerialized⟩, some ⟨true, name⟩)
  else
    let len := sLen.toNat
    if 0 < a.maxSerializeSize ∧ a.maxSerializeSize < (len : Int) then
      (⟨a1.data, a1.pos, true, a1.maxSerializeSize, a1.hashesSerialized⟩, none)
    else
      let name := (List.range len).map (fun i => a1.data.getD (a1.pos + i) 0)
      let afterStr := a1.pos + len
      (⟨a1.data, if a.hashesSerialized then afterStr + 4 else afterStr,
        a1.criticalErr, a1.maxSerializeSize, a1.hashesSerialized⟩, some ⟨false, name⟩)

/-- Claim C8: data-integrity errors while loading a serialized name entry
are recoverable, not fatal.  A corrupted negative-length marker equal to
`MIN_int32`, or a length exceeding the archive's positive maximum serialize
size (in either the wide or the ansi branch), makes the load set the
stream-corruption flag on the archive and return no entry, consuming only
the four length bytes and leaving the backing data untouched — the load
operation aborts as an ordinary return value, never the process. -/
theorem corrupt_entry_load_recoverable (a : MArchive) :
    (readInt32 a = MIN_int32 →
      loadNameEntrySerialized a =
        (⟨a.data, a.pos + 4, true, a.maxSerializeSize, a.hashesSerialized⟩, none)) ∧
    (readInt32 a < 0 → readInt32 a ≠ MIN_int32 →
      0 < a.maxSerializeSize → a.maxSerializeSize < -(readInt32 a) →
      loadNameEntrySerialized a =
        (⟨a.data, a.pos + 4, true, a.maxSerializeSize, a.hashesSerialized⟩, none)) ∧
    (0 ≤ readInt32 a →
      0 < a.maxSerializeSize → a.maxSerializeSize < readInt32 a →
      loadNameEntrySerialized a =
        (⟨a.data, a.pos + 4, true, a.maxSerializeSize, a.hashesSerialized⟩, none)) := by
  refine ⟨?_, ?_, ?_⟩
  · intro hmin
    have hneg : readInt32 a < 0 := by
      rw [hmin]
      decide
    simp only [loadNameEntrySerialized, if_pos hneg, if_pos hmin]
  · intro hneg hnmin hmax hsz
    have htn : (((-readInt32 a).toNat : Int)) = -(readInt32 a) := by
      rw [Int.toNat_of_nonneg]
      omega
    simp only [loadNameEntrySerialized, if_pos hneg, if_neg hnmin]
    rw [if_pos (by rw [htn]; exact ⟨hmax, hsz⟩)]
  · intro hpos hmax hsz
    have hnneg : ¬ readInt32 a < 0 := by omega
    have htn : (((readInt32 a).toNat : Int)) = readInt32 a := by
      rw [Int.toNat_of_nonneg hpos]
    simp only [loadNameEntrySerialized, if_neg hnneg]
    rw [if_pos (by rw [htn]; exact ⟨hmax, hsz⟩)]

/-- Witness for C8 at concrete archives: four bytes encoding MIN_int32 with
no size limit, and four bytes encoding length 100 against a limit of 10. -/
theorem corrupt_entry_load_recoverable_witness :
    loadNameEntrySerialized ⟨[0, 0, 0, 128], 0, false, 0, true⟩ =
      (⟨[0, 0, 0, 128], 4, true, 0, true⟩, none) ∧
    loadNameEntrySerialized ⟨[100, 0, 0, 0], 0, false, 10, true⟩ =
      (⟨[100, 0, 0, 0], 4, true, 10, true⟩, none) :=
  ⟨(corrupt_entry_load_recoverable ⟨[0, 0, 0, 128], 0, false, 0, true⟩).1 (by decide),
    (corrupt_entry_load_recoverable ⟨[100, 0, 0, 0], 0, false, 10, true⟩).2.2
      (by decide) (by decide) (by decide)⟩

/-! ### Slot-level shard model: probing, claiming and growth

`FNamePoolShard` at the slot-array level.  A slot is a 29-bit entry id
packed with the remaining probe-hash bits (`FNameSlot`); an all-zero slot is
unused.  Capacities are powers of two and the code masks probe indices with
`CapacityMask = capacity - 1`, which over a power-of-two capacity is exactly
reduction modulo the capacity, so the model uses `% capacity`.  The hash
function (`HashName<Sensitivity>`, built on the external CityHash64) enters
as a parameter `hashFn`, constrained only by congruence with the shard's
equivalence; the per-sensitivity comparison `EntryEqualsValue` is modelled
through a case-folding parameter `fold` (identity for the case-sensitive
shard set, ASCII lowercasing for the case-insensitive one). -/

/-- FNameSlot::Used: a slot is used iff its raw bits are non-zero. -/
def slotUsed (s : Nat) : Bool := decide (s ≠ 0)

/-- FNameSlot::GetId: the low `FNameMaxBlockBits + FNameBlockOffsetBits = 29`
bits. -/
def slotGetId (s : Nat) : Nat := s % 2 ^ 29

/-- FNameSlot::GetProbeHash: the bits above the entry id. -/
def slotGetProbeHash (s : Nat) : Nat := s - s % 2 ^ 29

/-- The slot-relevant parts of `FNameHash`. -/
structure MHash where
  unmaskedSlotIndex : Nat
  slotProbeHash : Nat
deriving DecidableEq

/-- A shard: its slot array and its used-slot counter. -/
structure MShard where
  slots : List Nat
  usedSlots : Nat
deriving DecidableEq

/-- Resolve a slot's entry id against the entry allocator
(`Entries->Resolve(Slot.GetId())`). -/
def resolveV (entries : List NameView) (s : Nat) : NameView :=
  entries.getD (slotGetId s) ⟨false, []⟩

/-- `EntryEqualsValue<Sensitivity>` under a case-folding function. -/
def eqvView (fold : Nat → Nat) (a b : NameView) : Bool :=
  decide (a.isWide = b.isWide ∧ a.text.map fold = b.text.map fold)

/-- The probe predicate of `FNamePoolShard::Probe(Value)`: the stored probe
hash bits match, and the resolved entry equals the probed value. -/
def matchPred (fold : Nat → Nat) (entries : List NameView) (hashFn : NameView → MHash)
    (v : NameView) (slot : Nat) : Bool :=
  decide (slotGetProbeHash slot = (hashFn v).slotProbeHash) &&
    eqvView fold (resolveV entries slot) v

/-- The stopping test of the probe loop: an unused slot or a predicate hit. -/
def stopAt (slots : List Nat) (pred : Nat → Bool) (i : Nat) : Bool :=
  !slotUsed (slots.getD i 0) || pred (slots.getD i 0)

/-- The linear probe loop `for (I = start; true; I = (I+1) & Mask)`, with
explicit fuel (the loop of the source never terminates on a full table; the
load-factor invariant keeps a free slot, and the fuel of one full sweep is
then enough, as proved below). -/
def probeFrom (slots : List Nat) (pred : Nat → Bool) : Nat → Nat → Option Nat
  | _, 0 => none
  | i, fuel + 1 =>
    if stopAt slots pred i then some i
    else probeFrom slots pred ((i + 1) % slots.length) fuel

/-- `Probe(UnmaskedSlotIndex, Predicate)`: probe from
`FNameHash::GetProbeStart`. -/
def probe (sh : MShard) (unmaskedSlotIndex : Nat) (pred : Nat → Bool) : Option Nat :=
  probeFrom sh.slots pred (unmaskedSlotIndex % sh.slots.length) sh.slots.length

/-- `FNamePoolShard::Find`: the id of the found slot, or the id of the free
slot hit (zero, an unused slot's `GetId`). -/
def shardFind (fold : Nat → Nat) (entries : List NameView) (hashFn : NameView → MHash)
    (sh : MShard) (v : NameView) : Nat :=
  match probe sh (hashFn v).unmaskedSlotIndex (matchPred fold entries hashFn v) with
  | some i => slotGetId (sh.slots.getD i 0)
  | none => 0

/-- The body of the rehash loop in `FNamePoolShard::Grow`: used slots are
re-probed from a freshly recomputed hash of the entry's bytes (`Rehash`) to
the first free slot (the constant-false predicate) and copied over
verbatim. -/
def growStep (entries : List NameView) (hashFn : NameView → MHash)
    (acc : MShard) (slot : Nat) : MShard :=
  if slotUsed slot = true then
    match probe acc (hashFn (resolveV entries slot)).unmaskedSlotIndex (fun _ => false) with
    | some idx => ⟨acc.slots.set idx slot, acc.usedSlots + 1⟩
    | none => acc
  else acc

/-- `FNamePoolShard::Grow(NewCapacity)`: allocate a zeroed slot array of the
new capacity, reset the counter, and re-insert every used old slot. -/
def grow (entries : List NameView) (hashFn : NameView → MHash)
    (sh : MShard) (newCapacity : Nat) : MShard :=
  sh.slots.foldl (growStep entries hashFn) ⟨List.replicate newCapacity 0, 0⟩

/-- `FNamePoolShard::Grow()`: double the capacity. -/
def grow1 (entries : List NameView) (hashFn : NameView → MHash) (sh : MShard) : MShard :=
  grow entries hashFn sh (2 * sh.slots.length)

/-- `FNamePoolShard::ClaimSlot`: write the new slot value, bump the counter
and grow when the 90% load factor is reached. -/
def claimSlot (entries : List NameView) (hashFn : NameView → MHash)
    (sh : MShard) (idx : Nat) (newValue : Nat) : MShard :=
  let sh1 : MShard := ⟨sh.slots.set idx newValue, sh.usedSlots + 1⟩
  if 9 * sh1.slots.length ≤ sh1.usedSlots * 10 then grow1 entries hashFn sh1 else sh1

/-- `FNamePoolShard::Insert`: probe; a used hit returns its id, a free slot
allocates a new entry and claims the slot with the packed id and probe
hash. -/
def shardInsert (fold : Nat → Nat) (entries : List NameView) (hashFn : NameView → MHash)
    (sh : MShard) (v : NameView) : Nat × List NameView × MShard :=
  match probe sh (hashFn v).unmaskedSlotIndex (matchPred fold entries hashFn v) with
  | none => (0, entries, sh)
  | some i =>
    if slotUsed (sh.slots.getD i 0) = true then (slotGetId (sh.slots.getD i 0), entries, sh)
    else
      (entries.length, entries ++ [v],
        claimSlot (entries ++ [v]) hashFn sh i (entries.length + (hashFn v).slotProbeHash))

/-- Cyclic probe distance from index a to index b in a table of the given
capacity. -/
def distCyc (cap a b : Nat) : Nat := (b + cap - a) % cap

/-- The probe start of a used slot, recomputed from its entry's bytes. -/
def startOfV (entries : List NameView) (hashFn : NameView → MHash)
    (cap : Nat) (s : Nat) : Nat :=
  (hashFn (resolveV entries s)).unmaskedSlotIndex % cap

/-- The linear probing path invariant: every used slot is reachable from its
probe start without crossing an unused slot. -/
def PathInv (entries : List NameView) (hashFn : NameView → MHash) (sh : MShard) : Prop :=
  ∀ i ∈ List.range sh.slots.length, slotUsed (sh.slots.getD i 0) = true →
    ∀ t ∈ List.range (distCyc sh.slots.length
        (startOfV entries hashFn sh.slots.length (sh.slots.getD i 0)) i),
      slotUsed (sh.slots.getD
        ((startOfV entries hashFn sh.slots.length (sh.slots.getD i 0) + t)
          % sh.slots.length) 0) = true

instance (entries : List NameView) (hashFn : NameView → MHash) (sh : MShard) :
    Decidable (PathInv entries hashFn sh) := by
  unfold PathInv
  infer_instance

/-- The shard invariant: power-of-two capacity, an accurate used counter,
a strict load bound (maintained by the 90% growth trigger), the probing path
invariant, and pairwise inequivalence of the entries referenced by used
slots (insert-if-absent never creates duplicates). -/
def Inv (fold : Nat → Nat) (entries : List NameView) (hashFn : NameView → MHash)
    (sh : MShard) : Prop :=
  (∃ k ∈ List.range (sh.slots.length + 1), sh.slots.length = 2 ^ k) ∧
  sh.usedSlots = (sh.slots.filter slotUsed).length ∧
  sh.usedSlots < sh.slots.length ∧
  PathInv entries hashFn sh ∧
  (sh.slots.filter slotUsed).Pairwise
    (fun s1 s2 => eqvView fold (resolveV entries s1) (resolveV entries s2) = false)

instance (fold : Nat → Nat) (entries : List NameView) (hashFn : NameView → MHash)
    (sh : MShard) : Decidable (Inv fold entries hashFn sh) := by
  unfold Inv
  infer_instance

lemma eqvView_refl (fold : Nat → Nat) (v : NameView) : eqvView fold v v = true := by
  simp [eqvView]

lemma eqvView_symm (fold : Nat → Nat) (a b : NameView) :
    eqvView fold a b = eqvView fold b a := by
  simp only [eqvView]
  exact decide_eq_decide.mpr
    ⟨fun h => ⟨h.1.symm, h.2.symm⟩, fun h => ⟨h.1.symm, h.2.symm⟩⟩

lemma eqvView_trans {fold : Nat → Nat} {a b c : NameView} (h1 : eqvView fold a b = true)
    (h2 : eqvView fold b c = true) : eqvView fold a c = true := by
  simp only [eqvView, decide_eq_true_eq] at h1 h2 ⊢
  exact ⟨h1.1.trans h2.1, h1.2.trans h2.2⟩

lemma getD_set {l : List Nat} {m : Nat} (hm : m < l.length) (a : Nat) (n : Nat) :
    (l.set m a).getD n 0 = if m = n then a else l.getD n 0 := by
  by_cases hn : n < l.length
  · have hn' : n < (l.set m a).length := by
      rw [List.length_set]
      exact hn
    rw [List.getD_eq_getElem _ 0 hn', List.getElem_set, List.getD_eq_getElem l 0 hn]
  · have hnm : ¬ m = n := by omega
    rw [if_neg hnm]
    have h1 : (l.set m a)[n]? = none := List.getElem?_eq_none (by rw [List.length_set]; omega)
    have h2 : l[n]? = none := List.getElem?_eq_none (by omega)
    rw [List.getD_eq_getElem?_getD, List.getD_eq_getElem?_getD, h1, h2]

lemma addmod_cover {cap start i : Nat} (hs : start < cap) (hi : i < cap) :
    (start + (i + cap - start) % cap) % cap = i := by
  rw [Nat.add_mod_mod]
  have e : start + (i + cap - start) = i + cap := by omega
  rw [e, Nat.add_mod_right, Nat.mod_eq_of_lt hi]

lemma addmod_inj {cap start t1 t2 : Nat} (h1 : t1 < cap) (h2 : t2 < cap)
    (he : (start + t1) % cap = (start + t2) % cap) : t1 = t2 := by
  have hm : t1 ≡ t2 [MOD cap] := Nat.ModEq.add_left_cancel' start he
  rwa [Nat.ModEq, Nat.mod_eq_of_lt h1, Nat.mod_eq_of_lt h2] at hm

lemma dist_probe {cap start t0 : Nat} (hs : start < cap) (ht : t0 < cap) :
    distCyc cap start ((start + t0) % cap) = t0 := by
  unfold distCyc
  have h2 : ((start + t0) % cap + cap - start) + start ≡ t0 + start [MOD cap] := by
    have h1 : ((start + t0) % cap + cap - start) + start = (start + t0) % cap + cap := by
      omega
    rw [h1]
    calc (start + t0) % cap + cap
        ≡ (start + t0) % cap [MOD cap] := Nat.add_mod_right _ _
      _ ≡ start + t0 [MOD cap] := Nat.mod_modEq _ _
      _ = t0 + start := by ring
  have h3 := Nat.ModEq.add_right_cancel' start h2
  rwa [Nat.ModEq, Nat.mod_eq_of_lt ht] at h3

lemma probeFrom_some {slots : List Nat} {pred : Nat → Bool} (hcap : 0 < slots.length) :
    ∀ (fuel start t : Nat), start < slots.length → t < fuel →
      stopAt slots pred ((start + t) % slots.length) = true →
      (∀ u < t, stopAt slots pred ((start + u) % slots.length) = false) →
      probeFrom slots pred start fuel = some ((start + t) % slots.length) := by
  intro fuel
  induction fuel with
  | zero =>
    intro start t _ ht _ _
    exact absurd ht (by omega)
  | succ f ih =>
    intro start t hs ht hstop hmin
    have hstart0 : (start + 0) % slots.length = start := by
      rw [Nat.add_zero, Nat.mod_eq_of_lt hs]
    cases t with
    | zero =>
      rw [hstart0] at hstop
      unfold probeFrom
      rw [if_pos hstop, hstart0]
    | succ u =>
      have hne := hmin 0 (by omega)
      rw [hstart0] at hne
      unfold probeFrom
      rw [if_neg (by simp [hne])]
      have hstep : ∀ w : Nat, (((start + 1) % slots.length) + w) % slots.length
          = (start + (w + 1)) % slots.length := by
        intro w
        rw [Nat.mod_add_mod]
        congr 1
        ring
      have hres := ih ((start + 1) % slots.length) u (Nat.mod_lt _ hcap) (by omega)
        (by rw [hstep u]; exact hstop)
        (by intro w hw; rw [hstep w]; exact hmin (w + 1) (by omega))
      rw [hres, hstep u]

lemma probeFrom_some_inv {slots : List Nat} {pred : Nat → Bool} (hcap : 0 < slots.length) :
    ∀ (fuel start r : Nat), start < slots.length →
      probeFrom slots pred start fuel = some r →
      ∃ t < fuel, r = (start + t) % slots.length ∧
        stopAt slots pred r = true ∧
        ∀ u < t, stopAt slots pred ((start + u) % slots.length) = false := by
  intro fuel
  induction fuel with
  | zero =>
    intro start r _ h
    simp [probeFrom] at h
  | succ f ih =>
    intro start r hs hp
    have hstart0 : (start + 0) % slots.length = start := by
      rw [Nat.add_zero, Nat.mod_eq_of_lt hs]
    unfold probeFrom at hp
    by_cases hst : stopAt slots pred start = true
    · rw [if_pos hst] at hp
      have hr : r = start := (Option.some.injEq _ _).mp hp |>.symm
      subst hr
      exact ⟨0, by omega, by rw [hstart0], hst, fun u hu => absurd hu (by omega)⟩
    · rw [if_neg hst] at hp
      have hstep : ∀ w : Nat, (((start + 1) % slots.length) + w) % slots.length
          = (start + (w + 1)) % slots.length := by
        intro w
        rw [Nat.mod_add_mod]
        congr 1
        ring
      obtain ⟨t, htf, hr, hstop, hmin⟩ := ih ((start + 1) % slots.length) r
        (Nat.mod_lt _ hcap) hp
      refine ⟨t + 1, by omega, by rw [hr, hstep t], hstop, ?_⟩
      intro u hu
      cases u with
      | zero =>
        rw [hstart0]
        cases hx : stopAt slots pred start
        · rfl
        · exact absurd hx hst
      | succ w =>
        rw [← hstep w]
        exact hmin w (by omega)

lemma exists_stop {slots : List Nat} {pred : Nat → Bool} {start : Nat}
    (hs : start < slots.length)
    (hfree : (slots.filter slotUsed).length < slots.length) :
    ∃ t < slots.length, stopAt slots pred ((start + t) % slots.length) = true := by
  by_contra hno
  push_neg at hno
  have hall : ∀ i < slots.length, slotUsed (slots.getD i 0) = true := by
    intro i hi
    have ht := hno ((i + slots.length - start) % slots.length)
      (Nat.mod_lt _ (by omega))
    rw [addmod_cover hs hi] at ht
    unfold stopAt at ht
    cases hu : slotUsed (slots.getD i 0)
    · exact absurd (by rw [hu]; rfl) ht
    · rfl
  have hfe : slots.filter slotUsed = slots := by
    apply List.filter_eq_self.mpr
    intro a ha
    obtain ⟨n, hn, he⟩ := List.mem_iff_getElem.mp ha
    have hgn := hall n hn
    rw [List.getD_eq_getElem slots 0 hn, he] at hgn
    exact hgn
  rw [hfe] at hfree
  omega

lemma probe_first {slots : List Nat} {pred : Nat → Bool} {start : Nat}
    (hs : start < slots.length)
    (hex : ∃ t < slots.length, stopAt slots pred ((start + t) % slots.length) = true) :
    ∃ t < slots.length, probeFrom slots pred start slots.length
        = some ((start + t) % slots.length) ∧
      stopAt slots pred ((start + t) % slots.length) = true ∧
      ∀ u < t, stopAt slots pred ((start + u) % slots.length) = false := by
  have hcap : 0 < slots.length := by
    obtain ⟨t, ht, _⟩ := hex
    omega
  have hexP : ∃ t, stopAt slots pred ((start + t) % slots.length) = true := by
    obtain ⟨t, _, h⟩ := hex
    exact ⟨t, h⟩
  have ht0 := Nat.find_spec hexP
  have hmin := fun u (hu : u < Nat.find hexP) => Nat.find_min hexP hu
  have ht0lt : Nat.find hexP < slots.length := by
    obtain ⟨t, htl, htp⟩ := hex
    by_contra h
    exact (hmin t (by omega)) htp
  refine ⟨Nat.find hexP, ht0lt, ?_, ht0, fun u hu => ?_⟩
  · exact probeFrom_some hcap slots.length start (Nat.find hexP) hs ht0lt ht0
      (fun u hu => by
        cases hx : stopAt slots pred ((start + u) % slots.length)
        · rfl
        · exact absurd hx (hmin u hu))
  · cases hx : stopAt slots pred ((start + u) % slots.length)
    · rfl
    · exact absurd hx (hmin u hu)

lemma pair_sublist {l : List Nat} : ∀ {i j : Nat} (hi : i < l.length) (hj : j < l.length),
    i < j → [l.get ⟨i, hi⟩, l.get ⟨j, hj⟩].Sublist l := by
  induction l with
  | nil =>
    intro i j hi _ _
    simp at hi
  | cons a l ih =>
    intro i j hi hj hij
    cases i with
    | zero =>
      cases j with
      | zero => omega
      | succ j' =>
        show [a, l.get ⟨j', by simpa using hj⟩].Sublist (a :: l)
        exact List.Sublist.cons₂ a
          (List.singleton_sublist.mpr (l.get_mem j' (by simpa using hj)))
    | succ i' =>
      cases j with
      | zero => omega
      | succ j' =>
        show [l.get ⟨i', by simpa using hi⟩, l.get ⟨j', by simpa using hj⟩].Sublist (a :: l)
        exact List.Sublist.cons a (ih _ _ (by omega))

lemma pairwise_filter_getD {slots : List Nat} {R : Nat → Nat → Prop}
    (hsym : ∀ x y, R x y → R y x)
    (hp : (slots.filter slotUsed).Pairwise R)
    {i j : Nat} (hi : i < slots.length) (hj : j < slots.length) (hne : i ≠ j)
    (hui : slotUsed (slots.getD i 0) = true) (huj : slotUsed (slots.getD j 0) = true) :
    R (slots.getD i 0) (slots.getD j 0) := by
  have key : ∀ {x y : Nat} (hx : x < slots.length) (hy : y < slots.length), x < y →
      slotUsed (slots.getD x 0) = true → slotUsed (slots.getD y 0) = true →
      R (slots.getD x 0) (slots.getD y 0) := by
    intro x y hx hy hxy hux huy
    have hsub := pair_sublist hx hy hxy
    have hgx : slots.get ⟨x, hx⟩ = slots.getD x 0 := (List.getD_eq_getElem slots 0 hx).symm
    have hgy : slots.get ⟨y, hy⟩ = slots.getD y 0 := (List.getD_eq_getElem slots 0 hy).symm
    rw [hgx, hgy] at hsub
    have hfsub : [slots.getD x 0, slots.getD y 0].Sublist (slots.filter slotUsed) := by
      have := List.Sublist.filter slotUsed hsub
      rwa [List.filter_cons_of_pos hux, List.filter_cons_of_pos huy,
        List.filter_nil] at this
    have hpw := hp.sublist hfsub
    rcases List.pairwise_cons.mp hpw with ⟨hR, _⟩
    exact hR _ (by simp)
  rcases Nat.lt_or_ge i j with h | h
  · exact key hi hj h hui huj
  · have h2 : j < i := by omega
    exact hsym _ _ (key hj hi h2 huj hui)

lemma filter_set_perm : ∀ {l : List Nat} {idx : Nat}, idx < l.length →
    slotUsed (l.getD idx 0) = false → ∀ {v : Nat}, slotUsed v = true →
    ((l.set idx v).filter slotUsed).Perm (v :: l.filter slotUsed) := by
  intro l
  induction l with
  | nil =>
    intro idx h
    simp at h
  | cons a l ih =>
    intro idx hidx hold v hv
    cases idx with
    | zero =>
      have hold' : slotUsed a = false := by simpa using hold
      show ((v :: l).filter slotUsed).Perm (v :: (a :: l).filter slotUsed)
      rw [List.filter_cons_of_pos hv, List.filter_cons_of_neg (by simp [hold'])]
    | succ k =>
      have hidx' : k < l.length := by simpa using hidx
      have hold' : slotUsed (l.getD k 0) = false := by
        simpa only [List.getD_cons_succ] using hold
      show ((a :: l.set k v).filter slotUsed).Perm (v :: (a :: l).filter slotUsed)
      by_cases ha : slotUsed a = true
      · rw [List.filter_cons_of_pos ha, List.filter_cons_of_pos ha]
        exact List.Perm.trans (List.Perm.cons a (ih hidx' hold' hv))
          (List.Perm.swap v a _)
      · rw [List.filter_cons_of_neg ha, List.filter_cons_of_neg ha]
        exact ih hidx' hold' hv

lemma filter_replicate_zero (n : Nat) : (List.replicate n 0).filter slotUsed = [] := by
  induction n with
  | zero => rfl
  | succ k ih =>
    rw [List.replicate_succ, List.filter_cons_of_neg (by decide)]
    exact ih

lemma getD_replicate_zero (n i : Nat) : (List.replicate n 0).getD i 0 = 0 := by
  by_cases h : i < n
  · rw [List.getD_eq_getElem _ 0 (by simpa using h), List.getElem_replicate]
  · have hle : (List.replicate n (0 : Nat)).length ≤ i := by
      simpa using (by omega : n ≤ i)
    rw [List.getD_eq_default _ _ hle]

lemma shardFind_unique {fold : Nat → Nat} {entries : List NameView}
    {hashFn : NameView → MHash}
    (hcong : ∀ a b : NameView, eqvView fold a b = true → hashFn a = hashFn b)
    {sh : MShard} (hInv : Inv fold entries hashFn sh)
    {s : Nat} (hmem : s ∈ sh.slots.filter slotUsed)
    {v : NameView} (hmatch : matchPred fold entries hashFn v s = true) :
    shardFind fold entries hashFn sh v = slotGetId s := by
  obtain ⟨hcap2, hused, hload, hpath, hpair⟩ := hInv
  have hcap : 0 < sh.slots.length := by omega
  have hsmem : s ∈ sh.slots := (List.mem_filter.mp hmem).1
  have hsused : slotUsed s = true := (List.mem_filter.mp hmem).2
  obtain ⟨i, hi, hie⟩ := List.mem_iff_getElem.mp hsmem
  have hgd : sh.slots.getD i 0 = s := by rw [List.getD_eq_getElem _ 0 hi, hie]
  have heqv : eqvView fold (resolveV entries s) v = true := by
    have h := hmatch
    unfold matchPred at h
    simp only [Bool.and_eq_true] at h
    exact h.2
  have hhash : hashFn (resolveV entries s) = hashFn v := hcong _ _ heqv
  have hstartlt : (hashFn v).unmaskedSlotIndex % sh.slots.length < sh.slots.length :=
    Nat.mod_lt _ hcap
  have hstart_eq : startOfV entries hashFn sh.slots.length s
      = (hashFn v).unmaskedSlotIndex % sh.slots.length := by
    unfold startOfV
    rw [hhash]
  have hit0 : ((hashFn v).unmaskedSlotIndex % sh.slots.length
      + distCyc sh.slots.length ((hashFn v).unmaskedSlotIndex % sh.slots.length) i)
      % sh.slots.length = i := by
    unfold distCyc
    exact addmod_cover hstartlt hi
  have ht0lt : distCyc sh.slots.length
      ((hashFn v).unmaskedSlotIndex % sh.slots.length) i < sh.slots.length := by
    unfold distCyc
    exact Nat.mod_lt _ hcap
  have hpath_i := hpath i (List.mem_range.mpr hi) (by rw [hgd]; exact hsused)
  rw [hgd, hstart_eq] at hpath_i
  have hnomatch : ∀ u < distCyc sh.slots.length
      ((hashFn v).unmaskedSlotIndex % sh.slots.length) i,
      matchPred fold entries hashFn v
        (sh.slots.getD (((hashFn v).unmaskedSlotIndex % sh.slots.length + u)
          % sh.slots.length) 0) = false := by
    intro u hu
    rcases Bool.eq_false_or_eq_true (matchPred fold entries hashFn v
        (sh.slots.getD (((hashFn v).unmaskedSlotIndex % sh.slots.length + u)
          % sh.slots.length) 0)) with hm | hf
    · exfalso
      have hjlt : ((hashFn v).unmaskedSlotIndex % sh.slots.length + u)
          % sh.slots.length < sh.slots.length := Nat.mod_lt _ hcap
      have hjuse := hpath_i u (List.mem_range.mpr hu)
      have hij : i ≠ ((hashFn v).unmaskedSlotIndex % sh.slots.length + u)
          % sh.slots.length := by
        intro he
        have ht := addmod_inj ht0lt (by omega : u < sh.slots.length)
          (by rw [hit0]; exact he)
        omega
      have hpw := pairwise_filter_getD
        (fun x y hxy => by rw [eqvView_symm]; exact hxy) hpair hi hjlt hij
        (by rw [hgd]; exact hsused) hjuse
      rw [hgd] at hpw
      have heqv_j : eqvView fold (resolveV entries
          (sh.slots.getD (((hashFn v).unmaskedSlotIndex % sh.slots.length + u)
            % sh.slots.length) 0)) v = true := by
        have h := hm
        unfold matchPred at h
        simp only [Bool.and_eq_true] at h
        exact h.2
      have hcontra := eqvView_trans heqv (by rw [eqvView_symm]; exact heqv_j)
      rw [hpw] at hcontra
      exact Bool.false_ne_true hcontra
    · exact hf
  have hstop : stopAt sh.slots (matchPred fold entries hashFn v)
      (((hashFn v).unmaskedSlotIndex % sh.slots.length
        + distCyc sh.slots.length ((hashFn v).unmaskedSlotIndex % sh.slots.length) i)
        % sh.slots.length) = true := by
    rw [hit0]
    unfold stopAt
    rw [hgd, hmatch]
    simp
  have hmin : ∀ u < distCyc sh.slots.length
      ((hashFn v).unmaskedSlotIndex % sh.slots.length) i,
      stopAt sh.slots (matchPred fold entries hashFn v)
        (((hashFn v).unmaskedSlotIndex % sh.slots.length + u) % sh.slots.length)
        = false := by
    intro u hu
    unfold stopAt
    rw [hnomatch u hu, hpath_i u (List.mem_range.mpr hu)]
    rfl
  have hpf := probeFrom_some hcap sh.slots.length
    ((hashFn v).unmaskedSlotIndex % sh.slots.length)
    (distCyc sh.slots.length ((hashFn v).unmaskedSlotIndex % sh.slots.length) i)
    hstartlt ht0lt hstop hmin
  unfold shardFind probe
  rw [hpf]
  show slotGetId (sh.slots.getD (((hashFn v).unmaskedSlotIndex % sh.slots.length
    + distCyc sh.slots.length ((hashFn v).unmaskedSlotIndex % sh.slots.length) i)
    % sh.slots.length) 0) = slotGetId s
  rw [hit0, hgd]

lemma pathInv_set {entries : List NameView} {hashFn : NameView → MHash}
    {slots : List Nat} {idx s t0 : Nat} {u u' : Nat}
    (hidx : idx < slots.length)
    (hfree : slotUsed (slots.getD idx 0) = false)
    (hpath : PathInv entries hashFn ⟨slots, u⟩)
    (ht0 : t0 < slots.length)
    (hidx_eq : idx = (startOfV entries hashFn slots.length s + t0) % slots.length)
    (hused_path : ∀ w < t0, slotUsed (slots.getD
        ((startOfV entries hashFn slots.length s + w) % slots.length) 0) = true) :
    PathInv entries hashFn ⟨slots.set idx s, u'⟩ := by
  have hcap : 0 < slots.length := by omega
  have hst : startOfV entries hashFn slots.length s < slots.length := by
    unfold startOfV
    exact Nat.mod_lt _ hcap
  unfold PathInv
  simp only [List.length_set]
  intro i hi hiu
  have hilt : i < slots.length := List.mem_range.mp hi
  by_cases hieq : i = idx
  · have hgi : (slots.set idx s).getD i 0 = s := by
      rw [getD_set hidx, if_pos hieq.symm]
    rw [hgi]
    have hdist : distCyc slots.length (startOfV entries hashFn slots.length s) i
        = t0 := by
      rw [hieq, hidx_eq]
      exact dist_probe hst ht0
    rw [hdist]
    intro t ht
    have htlt : t < t0 := List.mem_range.mp ht
    have hne : (startOfV entries hashFn slots.length s + t) % slots.length ≠ idx := by
      intro he
      have heq : t = t0 := addmod_inj (by omega) ht0 (by rw [he]; exact hidx_eq)
      omega
    rw [getD_set hidx, if_neg (fun hc => hne hc.symm)]
    exact hused_path t htlt
  · have hgi : (slots.set idx s).getD i 0 = slots.getD i 0 := by
      rw [getD_set hidx, if_neg (fun hc => hieq hc.symm)]
    rw [hgi] at hiu ⊢
    have hold := hpath i (by simpa using hi) hiu
    intro t ht
    have hpt := hold t ht
    have hne : (startOfV entries hashFn slots.length (slots.getD i 0) + t)
        % slots.length ≠ idx := by
      intro he
      rw [he, hfree] at hpt
      exact Bool.false_ne_true hpt
    rw [getD_set hidx, if_neg (fun hc => hne hc.symm)]
    exact hpt

lemma growStep_spec {entries : List NameView} {hashFn : NameView → MHash}
    {acc : MShard} {slot : Nat}
    (hcnt : acc.usedSlots = (acc.slots.filter slotUsed).length)
    (hpath : PathInv entries hashFn acc)
    (hroom : (acc.slots.filter slotUsed).length < acc.slots.length)
    (hused : slotUsed slot = true) :
    (growStep entries hashFn acc slot).slots.length = acc.slots.length ∧
    (growStep entries hashFn acc slot).usedSlots
      = ((growStep entries hashFn acc slot).slots.filter slotUsed).length ∧
    PathInv entries hashFn (growStep entries hashFn acc slot) ∧
    ((growStep entries hashFn acc slot).slots.filter slotUsed).Perm
      (slot :: acc.slots.filter slotUsed) := by
  have hcap : 0 < acc.slots.length := by omega
  have hstartlt : (hashFn (resolveV entries slot)).unmaskedSlotIndex % acc.slots.length
      < acc.slots.length := Nat.mod_lt _ hcap
  have hex : ∃ t < acc.slots.length, stopAt acc.slots (fun _ => false)
      (((hashFn (resolveV entries slot)).unmaskedSlotIndex % acc.slots.length + t)
        % acc.slots.length) = true := exists_stop hstartlt hroom
  obtain ⟨t0, ht0lt, hpf, hstop, hmin⟩ := probe_first hstartlt hex
  have hfree : slotUsed (acc.slots.getD
      (((hashFn (resolveV entries slot)).unmaskedSlotIndex % acc.slots.length + t0)
        % acc.slots.length) 0) = false := by
    unfold stopAt at hstop
    cases hx : slotUsed (acc.slots.getD
        (((hashFn (resolveV entries slot)).unmaskedSlotIndex % acc.slots.length + t0)
          % acc.slots.length) 0)
    · rfl
    · rw [hx] at hstop
      simp at hstop
  have hup : ∀ w < t0, slotUsed (acc.slots.getD
      (((hashFn (resolveV entries slot)).unmaskedSlotIndex % acc.slots.length + w)
        % acc.slots.length) 0) = true := by
    intro w hw
    have hm := hmin w hw
    unfold stopAt at hm
    cases hx : slotUsed (acc.slots.getD
        (((hashFn (resolveV entries slot)).unmaskedSlotIndex % acc.slots.length + w)
          % acc.slots.length) 0)
    · rw [hx] at hm
      simp at hm
    · rfl
  have hgs : growStep entries hashFn acc slot
      = ⟨acc.slots.set
          (((hashFn (resolveV entries slot)).unmaskedSlotIndex % acc.slots.length + t0)
            % acc.slots.length) slot, acc.usedSlots + 1⟩ := by
    unfold growStep
    rw [if_pos hused]
    unfold probe
    rw [hpf]
  have hposlt : ((hashFn (resolveV entries slot)).unmaskedSlotIndex % acc.slots.length
      + t0) % acc.slots.length < acc.slots.length := Nat.mod_lt _ hcap
  have hperm := filter_set_perm hposlt hfree (v := slot) hused
  rw [hgs]
  refine ⟨by simp, ?_, ?_, hperm⟩
  · show acc.usedSlots + 1 = _
    rw [hperm.length_eq, List.length_cons, hcnt]
  · exact pathInv_set hposlt hfree hpath ht0lt rfl hup

lemma grow_loop {entries : List NameView} {hashFn : NameView → MHash} :
    ∀ (rem : List Nat) (acc : MShard),
      acc.usedSlots = (acc.slots.filter slotUsed).length →
      PathInv entries hashFn acc →
      (acc.slots.filter slotUsed).length + (rem.filter slotUsed).length
        < acc.slots.length →
      (rem.foldl (growStep entries hashFn) acc).slots.length = acc.slots.length ∧
      (rem.foldl (growStep entries hashFn) acc).usedSlots
        = ((rem.foldl (growStep entries hashFn) acc).slots.filter slotUsed).length ∧
      PathInv entries hashFn (rem.foldl (growStep entries hashFn) acc) ∧
      ((rem.foldl (growStep entries hashFn) acc).slots.filter slotUsed).Perm
        (rem.filter slotUsed ++ acc.slots.filter slotUsed) := by
  intro rem
  induction rem with
  | nil =>
    intro acc hcnt hpath hroom
    exact ⟨rfl, hcnt, hpath, by simp⟩
  | cons a rem ih =>
    intro acc hcnt hpath hroom
    by_cases ha : slotUsed a = true
    · have hroom1 : (acc.slots.filter slotUsed).length < acc.slots.length := by
        rw [List.filter_cons_of_pos ha, List.length_cons] at hroom
        omega
      obtain ⟨hl, hc, hp, hpm⟩ := growStep_spec hcnt hpath hroom1 ha
      have hroom' : ((growStep entries hashFn acc a).slots.filter slotUsed).length
          + (rem.filter slotUsed).length < (growStep entries hashFn acc a).slots.length := by
        rw [hl, hpm.length_eq, List.length_cons]
        rw [List.filter_cons_of_pos ha, List.length_cons] at hroom
        omega
      obtain ⟨rl, rc, rp, rpm⟩ := ih (growStep entries hashFn acc a) hc hp hroom'
      refine ⟨?_, ?_, ?_, ?_⟩
      · simp only [List.foldl_cons]
        rw [rl, hl]
      · simp only [List.foldl_cons]
        exact rc
      · simp only [List.foldl_cons]
        exact rp
      · simp only [List.foldl_cons, List.filter_cons_of_pos ha]
        exact rpm.trans ((List.Perm.append_left _ hpm).trans List.perm_middle)
    · have hgs : growStep entries hashFn acc a = acc := by
        unfold growStep
        rw [if_neg ha]
      have hroom' : (acc.slots.filter slotUsed).length + (rem.filter slotUsed).length
          < acc.slots.length := by
        rw [List.filter_cons_of_neg ha] at hroom
        exact hroom
      obtain ⟨rl, rc, rp, rpm⟩ := ih acc hcnt hpath hroom'
      simp only [List.foldl_cons, hgs, List.filter_cons_of_neg ha]
      exact ⟨rl, rc, rp, rpm⟩

lemma grow1_spec {fold : Nat → Nat} {entries : List NameView} {hashFn : NameView → MHash}
    {sh : MShard} (hInv : Inv fold entries hashFn sh) :
    Inv fold entries hashFn (grow1 entries hashFn sh) ∧
    (grow1 entries hashFn sh).usedSlots = sh.usedSlots ∧
    ((grow1 entries hashFn sh).slots.filter slotUsed).Perm
      (sh.slots.filter slotUsed) := by
  obtain ⟨hcap2, hused, hload, hpath, hpair⟩ := hInv
  have hcap : 0 < sh.slots.length := by omega
  have hacc_cnt : (⟨List.replicate (2 * sh.slots.length) 0, 0⟩ : MShard).usedSlots
      = ((⟨List.replicate (2 * sh.slots.length) 0, 0⟩ : MShard).slots.filter
          slotUsed).length := by
    show (0 : Nat) = ((List.replicate (2 * sh.slots.length) 0).filter slotUsed).length
    rw [filter_replicate_zero]
    rfl
  have hacc_path : PathInv entries hashFn ⟨List.replicate (2 * sh.slots.length) 0, 0⟩ := by
    unfold PathInv
    intro i hi hiu
    rw [show (⟨List.replicate (2 * sh.slots.length) 0, 0⟩ : MShard).slots
        = List.replicate (2 * sh.slots.length) 0 from rfl, getD_replicate_zero] at hiu
    exact absurd hiu (by decide)
  have hroom0 : ((⟨List.replicate (2 * sh.slots.length) 0, 0⟩ : MShard).slots.filter
        slotUsed).length + (sh.slots.filter slotUsed).length
      < (⟨List.replicate (2 * sh.slots.length) 0, 0⟩ : MShard).slots.length := by
    show ((List.replicate (2 * sh.slots.length) 0).filter slotUsed).length
        + (sh.slots.filter slotUsed).length
      < (List.replicate (2 * sh.slots.length) 0).length
    rw [filter_replicate_zero, List.length_replicate]
    simp only [List.length_nil]
    omega
  obtain ⟨hl, hc, hp, hpm⟩ := grow_loop sh.slots
    ⟨List.replicate (2 * sh.slots.length) 0, 0⟩ hacc_cnt hacc_path hroom0
  have hgrow : grow1 entries hashFn sh
      = sh.slots.foldl (growStep entries hashFn)
          ⟨List.replicate (2 * sh.slots.length) 0, 0⟩ := rfl
  have hpm' : ((grow1 entries hashFn sh).slots.filter slotUsed).Perm
      (sh.slots.filter slotUsed) := by
    rw [hgrow]
    have hz : (⟨List.replicate (2 * sh.slots.length) 0, 0⟩ : MShard).slots.filter
        slotUsed = [] := by
      show (List.replicate (2 * sh.slots.length) 0).filter slotUsed = []
      exact filter_replicate_zero _
    rw [hz, List.append_nil] at hpm
    exact hpm
  have hcnt' : (grow1 entries hashFn sh).usedSlots = sh.usedSlots := by
    rw [hgrow]
    rw [hgrow] at hpm'
    rw [hc, hpm'.length_eq, hused]
  have hlen' : (grow1 entries hashFn sh).slots.length = 2 * sh.slots.length := by
    rw [hgrow, hl]
    exact List.length_replicate _ _
  refine ⟨⟨?_, ?_, ?_, ?_, ?_⟩, hcnt', hpm'⟩
  · obtain ⟨k, hk, he⟩ := hcap2
    refine ⟨k + 1, ?_, ?_⟩
    · rw [List.mem_range] at hk ⊢
      have hlt := Nat.lt_two_pow k
      rw [← he] at hlt
      rw [hlen']
      omega
    · rw [hlen', he, pow_succ]
      ring
  · rw [hgrow]
    exact hc
  · rw [hcnt', hlen']
    omega
  · rw [hgrow]
    exact hp
  · exact (List.Perm.pairwise_iff
      (R := fun s1 s2 => eqvView fold (resolveV entries s1) (resolveV entries s2) = false)
      (fun hxy => (eqvView_symm fold _ _).trans hxy) hpm').mpr hpair

/-- Claim C7: shard growth preserves identity.  On a well-formed shard whose
hash function respects the shard's equivalence, growing (doubling the
capacity, rehashing every used old slot from its entry's bytes and
re-inserting it) carries over every previously-used slot exactly once — the
used-slot multiset and hence the used-slot count are unchanged, the shard
invariant still holds — and for every value matching a used slot (in
particular every previously inserted string, whose slot stores the id that
the insertion returned), the lookup after any number of growth events (n = 0
included, i.e. the lookup at insertion time) returns that same slot's
identifier. -/
theorem shard_growth_preserves_identity
    (fold : Nat → Nat) (entries : List NameView) (hashFn : NameView → MHash) (sh : MShard)
    (hcong : ∀ a b : NameView, eqvView fold a b = true → hashFn a = hashFn b)
    (hInv : Inv fold entries hashFn sh) (n : Nat) :
    ((grow1 entries hashFn)^[n] sh).usedSlots = sh.usedSlots ∧
    (((grow1 entries hashFn)^[n] sh).slots.filter slotUsed).Perm
      (sh.slots.filter slotUsed) ∧
    Inv fold entries hashFn ((grow1 entries hashFn)^[n] sh) ∧
    ∀ (v : NameView) (s : Nat), s ∈ sh.slots.filter slotUsed →
      matchPred fold entries hashFn v s = true →
      shardFind fold entries hashFn ((grow1 entries hashFn)^[n] sh) v = slotGetId s := by
  induction n with
  | zero =>
    refine ⟨rfl, List.Perm.refl _, hInv, ?_⟩
    intro v s hmem hmatch
    exact shardFind_unique hcong hInv hmem hmatch
  | succ k ih =>
    obtain ⟨hu, hpm, hinv, _⟩ := ih
    have hg := grow1_spec hinv
    rw [Function.iterate_succ_apply']
    refine ⟨?_, ?_, hg.1, ?_⟩
    · rw [hg.2.1, hu]
    · exact hg.2.2.trans hpm
    · intro v s hmem hmatch
      have hmem' : s ∈ ((grow1 entries hashFn)^[k] sh).slots.filter slotUsed :=
        hpm.mem_iff.mpr hmem
      have hmem2 : s ∈ (grow1 entries hashFn
          ((grow1 entries hashFn)^[k] sh)).slots.filter slotUsed :=
        hg.2.2.mem_iff.mpr hmem'
      exact shardFind_unique hcong hg.1 hmem2 hmatch

/-- A concrete entry allocator for exercising the shard model. -/
def wEntries : List NameView := [⟨false, [10]⟩, ⟨false, [11]⟩]

/-- A concrete hash function: the first byte as the unmasked slot index and a
fixed probe-hash bit. -/
def wHash : NameView → MHash := fun v => ⟨v.text.getD 0 0, 2 ^ 29⟩

/-- A concrete shard of capacity 4 holding entry ids 0 and 1 in its last two
slots. -/
def wShard : MShard := ⟨[0, 0, 2 ^ 29, 2 ^ 29 + 1], 2⟩

theorem shard_growth_preserves_identity_witness :
    ((grow1 wEntries wHash)^[2] wShard).usedSlots = wShard.usedSlots ∧
    (((grow1 wEntries wHash)^[2] wShard).slots.filter slotUsed).Perm
      (wShard.slots.filter slotUsed) ∧
    shardFind id wEntries wHash ((grow1 wEntries wHash)^[2] wShard) ⟨false, [11]⟩ = 1 := by
  have hcong : ∀ a b : NameView, eqvView id a b = true → wHash a = wHash b := by
    intro a b h
    simp only [eqvView, decide_eq_true_eq, List.map_id] at h
    unfold wHash
    rw [h.2]
  have h := shard_growth_preserves_identity id wEntries wHash wShard hcong (by decide) 2
  refine ⟨h.1, h.2.1, ?_⟩
  have h3 := h.2.2.2 ⟨false, [11]⟩ (2 ^ 29 + 1) (by decide) (by decide)
  rw [h3]
  decide

end UN
